import Mathlib

/-!
# LightWAVE server (`src/server/lightwave.c`): verification development

A shallow embedding of the request-scoped transcoding pipeline of the
LightWAVE server, followed by theorems about it.

Modelling conventions.

* A C string is the `List Char` of its characters before the terminating NUL,
  each character standing for the byte of that code; `strcmp(a, b) == 0` is
  equality of those lists.  Plain `char` is a signed type (gcc on x86-64): the
  comparison `s[i] < ' '` of `strjson` is taken on the signed value of the
  byte (`charValue`), so that the bytes from `0x80` up are below the space.
* `int` is the 32-bit two's-complement type: the values that the program
  computes from its input, the differences of samples and the result of `atoi`
  (which is `(int) strtol`, with a 64-bit `long`), are reduced to that range by
  `wrapInt`, as gcc does on x86-64.  Counters, indices and `WFDB_Time` values
  are mathematical integers.
* The `double` values of `approx_LCM` and `prep_signals` are binary64 numbers,
  each carried as the rational it denotes: every operation rounds its exact
  result to the nearest binary64 number, ties to even (`fl`, `toDouble`), and
  an operation that overflows gives `none`.  The products of `prep_times` and
  the rescaling of times to ticks are taken exactly; the conversion of a
  `double` to an integer type truncates toward zero.
* Reads and writes through pointers are bounds-checked: a function that would
  touch memory outside an allocation returns `none`.
-/

namespace Lightwave

/-! ## Text escaping: `strjson` (lines 282-312) -/

/-- The test `s[i] == '"' || s[i] == '\\'` used by both loops of `strjson`. -/
def needsEscape (c : Char) : Bool := c = '"' || c = '\\'

/-- The value of a plain `char` that holds the byte of code `c` (a code below
256), `char` being a signed type (gcc on x86-64): the bytes from `0x80` up are
negative. -/
def charValue (c : Char) : Int :=
  if c.toNat < 128 then (c.toNat : Int) else (c.toNat : Int) - 256

/-- The test `s[i] < ' '` of line 295, a comparison of plain `char` values. -/
def belowSpace (c : Char) : Bool := decide (charValue c < charValue ' ')

/-- First loop of `strjson` (lines 293-296): walks the input, counts in `q` the
characters that must be escaped and overwrites, in place, every other character
below `' '` by a space.  Returns the rewritten input and `q`. -/
def strjson_scan : List Char → List Char × Nat
  | [] => ([], 0)
  | c :: cs =>
    let r := strjson_scan cs
    if needsEscape c then (c :: r.1, r.2 + 1)
    else if belowSpace c then (' ' :: r.1, r.2)
    else (c :: r.1, r.2)

/-- Second loop of `strjson` (lines 305-308): copies the rewritten input,
writing a backslash before each character that must be escaped. -/
def strjson_fill : List Char → List Char
  | [] => []
  | c :: cs =>
    if needsEscape c then '\\' :: c :: strjson_fill cs
    else c :: strjson_fill cs

/-- The function `strjson`: the characters stored in `js` before its NUL. -/
def strjson (s : List Char) : List Char :=
  '"' :: (strjson_fill (strjson_scan s).1 ++ ['"'])

/-- A channel buffer of `fetchsignals`: `cells` is the block allocated for
`sb[n]` (zero-filled by `SUALLOC`), `pos` is the offset `sp[n] - sb[n]` of the
write pointer. -/
structure SampleBuf where
  cells : List Int
  pos : Nat
deriving DecidableEq, Repr

/-- The value of type `int` that a signed 32-bit operation gives when its
mathematical result is `x`: the representative of `x` modulo `2^32` in
`[-2^31, 2^31)`. -/
def wrapInt (x : Int) : Int := (x + 2147483648) % 4294967296 - 2147483648

/-- The value `x` is in the range of `int` (and of `WFDB_Sample`). -/
def isInt (x : Int) : Prop := -2147483648 ≤ x ∧ x < 2147483648

/-- The `for` loop of lines 608-612.  The first argument is the number of
iterations left, `spo - sbo`; the loop reads `*sbo`, emits the `int`
`delta = *sbo - prev` and moves on with `prev = *sbo`.  Returns the emitted
values with the final `sbo` and `prev`. -/
def deltaLoop (cells : List Int) : Nat → Nat → Int → Option (List Int × Nat × Int)
  | 0, sbo, prev => some ([], sbo, prev)
  | k + 1, sbo, prev =>
    match cells.get? sbo with
    | none => none
    | some x =>
      match deltaLoop cells k (sbo + 1) x with
      | none => none
      | some r => some (wrapInt (x - prev) :: r.1, r.2)

/-- The values printed in the `samp` array of one channel (lines 608-613): the
loop runs from `sbo = sb[n]` while `sbo < sp[n] - 1`, then one more value, the
`int` `*sbo - prev`, is printed. -/
def emitSamp (b : SampleBuf) : Option (List Int) :=
  match deltaLoop b.cells (b.pos - 1) 0 0 with
  | none => none
  | some r =>
    match b.cells.get? r.2.1 with
    | none => none
    | some x => some (r.1 ++ [wrapInt (x - r.2.2)])

/-- First differences of a sequence, starting from `prev`. -/
def deltaEncode : Int → List Int → List Int
  | _, [] => []
  | prev, x :: xs => (x - prev) :: deltaEncode x xs

/-- The decoder of the consumer: running sum starting from `acc`. -/
def runningSum : Int → List Int → List Int
  | _, [] => []
  | acc, d :: ds => (acc + d) :: runningSum (acc + d) ds

/-- First differences of a sequence taken in `int` arithmetic, starting from
`prev`. -/
def intDeltas : Int → List Int → List Int
  | _, [] => []
  | prev, x :: xs => wrapInt (x - prev) :: intDeltas x xs

/-- Running sum taken in `int` arithmetic, starting from `acc`. -/
def intSum : Int → List Int → List Int
  | _, [] => []
  | acc, d :: ds => wrapInt (acc + d) :: intSum (wrapInt (acc + d)) ds

/-! ## Signal names: `force_unique_signames` (lines 638-679) -/

/-- Inner loop of the first pass (lines 663-667) for a fixed `i`: the first
argument is the number of iterations left, `nsig - j`.  When
`strcmp(s[i].desc, s[j].desc) == 0` both `sname[i]` and `sname[j]` are set to
the marker `"change"` (`true`); an entry still `NULL` is `false`. -/
def markInner (desc : List (List Char)) (i : Nat) : Nat → Nat → List Bool → List Bool
  | 0, _, marks => marks
  | k + 1, j, marks =>
    markInner desc i k (j + 1)
      (if desc.get? i = desc.get? j then (marks.set i true).set j true else marks)

/-- Outer loop of the first pass (lines 662-668): the first argument is the
number of iterations left, `nsig - i`; the inner loop starts at `j = i + 1`. -/
def markOuter (desc : List (List Char)) : Nat → Nat → List Bool → List Bool
  | 0, _, marks => marks
  | k + 1, i, marks =>
    markOuter desc k (i + 1) (markInner desc i (desc.length - (i + 1)) (i + 1) marks)

/-- First pass of `force_unique_signames`, on the `sname` array that `SALLOC`
filled with `NULL`. -/
def markDuplicates (desc : List (List Char)) : List Bool :=
  markOuter desc desc.length 0 (List.replicate desc.length false)

/-- The text written by `sprintf(sname[i], "%s:%d*", s[i].desc, j)` for `j ≥ 0`. -/
def suffixed (desc : List Char) (j : Nat) : List Char :=
  desc ++ ':' :: (Nat.toDigits 10 j ++ ['*'])

/-- Second pass of `force_unique_signames` (lines 670-678), over the remaining
descriptions and marks, with the counter `j`. -/
def assignNames : List (List Char) → List Bool → Nat → List (List Char)
  | d :: ds, m :: ms, j =>
    if m = false ∧ j < 1000 then d :: assignNames ds ms j
    else suffixed d j :: assignNames ds ms (j + 1)
  | _, _, _ => []

/-- The function `force_unique_signames`: the array `sname` computed from the
descriptions `s[0].desc`, ..., `s[nsig-1].desc`. -/
def force_unique_signames (desc : List (List Char)) : List (List Char) :=
  assignNames desc (markDuplicates desc) 0

/-- Channel `i` has a raw name shared with another channel. -/
def shared (desc : List (List Char)) (i : Nat) : Bool :=
  (List.range desc.length).any (fun j => decide (j ≠ i) && decide (desc.get? j = desc.get? i))

/-- Number of channels before `i` whose raw name is shared. -/
def sharedBefore (desc : List (List Char)) (i : Nat) : Nat :=
  ((List.range i).filter (shared desc)).length

/-! ## Selector resolution: `ufindsig` (lines 681-702) -/

/-- The test `'0' <= *q && *q <= '9'` of line 689. -/
def isdigit (c : Char) : Bool := decide ('0'.toNat ≤ c.toNat) && decide (c.toNat ≤ '9'.toNat)

/-- The C library predicate `isspace` in the "C" locale. -/
def isspace (c : Char) : Bool :=
  c = ' ' || c = '\t' || c = '\n' || c = Char.ofNat 11 || c = Char.ofNat 12 || c = '\r'

/-- Digit accumulation of `atoi`: reads decimal digits up to the first
character that is not one. -/
def atoiDigits : Nat → List Char → Nat
  | acc, [] => acc
  | acc, c :: cs =>
    if isdigit c then atoiDigits (10 * acc + (c.toNat - '0'.toNat)) cs else acc

/-- The constant `LONG_MAX` of a 64-bit `long`. -/
def LONG_MAX : Int := 9223372036854775807

/-- The constant `LONG_MIN` of a 64-bit `long`. -/
def LONG_MIN : Int := -9223372036854775808

/-- The C library call `strtol(p, NULL, 10)`: skips white space, reads an
optional sign and then decimal digits; a value outside the range of `long` is
replaced by `LONG_MIN` or `LONG_MAX`. -/
def strtol (p : List Char) : Int :=
  match p.dropWhile isspace with
  | '-' :: r => max LONG_MIN (- (atoiDigits 0 r : Int))
  | '+' :: r => min LONG_MAX (atoiDigits 0 r : Int)
  | q => min LONG_MAX (atoiDigits 0 q : Int)

/-- The C library function `atoi`, which is `(int) strtol(p, NULL, 10)`: the
value read, converted from `long` to the 32-bit `int`. -/
def atoi (p : List Char) : Int := wrapInt (strtol p)

/-- The name search of `ufindsig` (lines 697-701), from index `i` on. -/
def findName (p : List Char) : List (List Char) → Nat → Int
  | [], _ => -1
  | nm :: rest, i => if p = nm then (i : Int) else findName p rest (i + 1)

/-- The function `ufindsig`, with `nsig` the number of entries of `sname`. -/
def ufindsig (sname : List (List Char)) (p : List Char) : Int :=
  if p.dropWhile isdigit = [] then
    if atoi p < (sname.length : Int) then atoi p else findName p sname 0
  else findName p sname 0

/-- Numeric value of a text made of decimal digits. -/
def decimalValue (p : List Char) : Nat :=
  p.foldl (fun acc c => 10 * acc + (c.toNat - '0'.toNat)) 0

/-! ## Binary64 arithmetic: the type `double`

A finite `double` is carried as the rational number it denotes. -/

/-- The integer nearest to `q`, and the even one of the two nearest when `q`
lies halfway between them (the rounding mode of C, round to nearest even). -/
def roundEven (q : ℚ) : Int :=
  if q - (⌊q⌋ : ℚ) < 1 / 2 then ⌊q⌋
  else if q - (⌊q⌋ : ℚ) > 1 / 2 then ⌊q⌋ + 1
  else if ⌊q⌋ % 2 = 0 then ⌊q⌋ else ⌊q⌋ + 1

/-- The exponent of the spacing of the binary64 numbers around `q`: with
`2^L <= |q| < 2^(L+1)` they are the multiples of `2^(L-52)`, and the multiples
of `2^(-1074)` in the subnormal range. -/
def ulpExp (q : ℚ) : Int := max (Int.log 2 |q| - 52) (-1074)

/-- The binary64 number nearest to `q` (ties to the even significand), with
no bound on the exponent from above. -/
@[irreducible] def fl (q : ℚ) : ℚ :=
  (roundEven (q / (2 : ℚ) ^ ulpExp q) : ℚ) * (2 : ℚ) ^ ulpExp q

/-- The constant `DBL_MAX`, the largest finite binary64 number. -/
@[irreducible] def DBL_MAX : ℚ := (2 ^ 53 - 1) * 2 ^ 971

/-- The `double` that an operation with the exact result `q` delivers: `q`
rounded to binary64; `none` when the operation overflows. -/
@[irreducible] def toDouble (q : ℚ) : Option ℚ :=
  if |fl q| ≤ DBL_MAX then some (fl q) else none

/-! ## Tick frequency: `approx_LCM` (lines 237-250) -/

/-- The constant `TOL` (line 56): the `double` written `0.001`. -/
def TOL : ℚ := fl (1 / 1000)

/-- The test `-TOL > (z = x/y - 1) || z > TOL` of line 244 on the doubles `x`
and `y`: the quotient and the difference are each rounded to `double`. -/
def approx_LCM_test (x y : ℚ) : Option Bool :=
  match toDouble (x / y) with
  | none => none
  | some q =>
    match toDouble (q - 1) with
    | none => none
    | some z => some (decide (-TOL > z ∨ z > TOL))

/-- The `while` loop of `approx_LCM` (lines 244-248) with the running values
`x`, `y` and the original values `x0`, `y0`, all of type `double`.  The first
argument bounds the number of iterations; the result is the returned `x` with
the number of iterations performed, or `none` when the bound is exhausted or
an operation overflows. -/
def approx_LCM_loop (x0 y0 : ℚ) : Nat → ℚ → ℚ → Option (ℚ × Nat)
  | 0, x, y =>
    match approx_LCM_test x y with
    | some false => some (x, 0)
    | _ => none
  | fuel + 1, x, y =>
    match approx_LCM_test x y with
    | none => none
    | some false => some (x, 0)
    | some true =>
      if x < y then
        match toDouble (x + x0) with
        | none => none
        | some x1 => (approx_LCM_loop x0 y0 fuel x1 y).map (fun r => (r.1, r.2 + 1))
      else
        match toDouble (y + y0) with
        | none => none
        | some y1 => (approx_LCM_loop x0 y0 fuel x y1).map (fun r => (r.1, r.2 + 1))

/-- The function `approx_LCM` on two doubles, with a bound on the number of
loop iterations. -/
def approx_LCM (fuel : Nat) (x y : ℚ) : Option (ℚ × Nat) :=
  if x ≤ 0 ∨ y ≤ 0 then some (0, 0) else approx_LCM_loop x y fuel x y

/-! ## Request window: `prep_times` (lines 204-235) -/

/-- Conversion of a `double` to `WFDB_Time`: truncation toward zero. -/
def truncToInt (q : ℚ) : Int := Int.tdiv q.num (q.den : Int)

/-- Lines 228-233 of `prep_times`: the frame count `dt` computed from the
value `d = atoi(p)` of the requested duration. -/
def prep_times_dt (ffreq : ℚ) (d : Int) : Int :=
  if d ≤ 0 then 0
  else
    let dt := truncToInt ((d : ℚ) * ffreq)
    if dt < 1 then 1
    else if (dt : ℚ) > 120 * ffreq ∧ dt > 120000 then truncToInt (120 * ffreq)
    else dt

/-- The globals `t0`, `dt` and `tf` set by `prep_times`. -/
structure Window where
  t0 : Int
  dt : Int
  tf : Int
deriving DecidableEq, Repr

/-- The function `prep_times`.  `start` is the value `strtim(p)` of the
parameter `t0` (its default `"0"` gives 0); `dtParam` is the parameter `dt`,
`none` when the request has none. -/
def prep_times (ffreq : ℚ) (start : Int) (dtParam : Option (List Char)) : Window :=
  let t0 := if start < 0 then -start else start
  let p := dtParam.getD ['1']
  let dt := prep_times_dt ffreq (atoi p)
  ⟨t0, dt, t0 + dt⟩

/-! ## Signal transcoding: `fetchsignals` (lines 533-625) -/

/-- Buffers allocated for the selected signals (lines 558-562): `sb[n]` has
`(tf - t0) * s[n].spf` zero cells and `sp[n] = sb[n]` when `sigmap[n] >= 0`,
and stays `NULL` otherwise. -/
def allocBuffers (frames : Int) : List Nat → List Int → List (Option SampleBuf)
  | spf :: spfs, sm :: sms =>
    (if sm ≥ 0 then some ⟨List.replicate (frames * (spf : Int)).toNat 0, 0⟩ else none)
      :: allocBuffers frames spfs sms
  | _, _ => []

/-- The frame map `m` (lines 566-569): `s[n].spf` copies of `sigmap[n]` for
each signal in turn. -/
def frameMap : List Nat → List Int → List Int
  | spf :: spfs, sm :: sms => List.replicate spf sm ++ frameMap spfs sms
  | _, _ => []

/-- The loop of line 570, `for (imax = framelen-1; imax > 0 && m[imax] < 0; imax--)`,
from a non-negative `imax`. -/
def scanImax (m : List Int) : Nat → Nat
  | 0 => 0
  | k + 1 => if m.getD (k + 1) 0 < 0 then scanImax m k else k + 1

/-- Value of `imax` after line 570 (`-1` when the frame is empty). -/
def imaxOf (m : List Int) (framelen : Nat) : Int :=
  if framelen = 0 then -1 else (scanImax m (framelen - 1) : Int)

/-- The loop of line 572, `for (imin = 0; imin < imax && m[imin] < 0; imin++)`;
the first argument is `imax - imin`. -/
def scanImin (m : List Int) : Nat → Nat → Nat
  | 0, imin => imin
  | k + 1, imin => if m.getD imin 0 < 0 then scanImin m k (imin + 1) else imin

/-- The store `*(sp[n]++) = x` into the buffer of signal `n`. -/
def storeSample (bufs : List (Option SampleBuf)) (n : Nat) (x : Int) :
    Option (List (Option SampleBuf)) :=
  match bufs.get? n with
  | some (some b) =>
    if b.pos < b.cells.length then
      some (bufs.set n (some ⟨b.cells.set b.pos x, b.pos + 1⟩))
    else none
  | _ => none

/-- The inner loop of lines 578-579 on one frame vector `v`, from slot `i`;
the first argument is the number of slots left, `imax - i + 1`. -/
def scatter (m v : List Int) : Nat → Nat → List (Option SampleBuf) →
    Option (List (Option SampleBuf))
  | 0, _, bufs => some bufs
  | k + 1, i, bufs =>
    if m.getD i 0 ≥ 0 then
      match storeSample bufs (m.getD i 0).toNat (v.getD i 0) with
      | none => none
      | some bufs1 => scatter m v k (i + 1) bufs1
    else scatter m v k (i + 1) bufs

/-- The loop of lines 577-579: the first argument is the number of frames
left, `tf - t`; `src` lists the frames that the next calls of `getframe`
yield (it fails when the list is exhausted).  Returns the buffers and the
number of frames read. -/
def fillBuffers (m : List Int) (imin count : Nat) :
    Nat → List (List Int) → List (Option SampleBuf) → Option (List (Option SampleBuf) × Nat)
  | 0, _, bufs => some (bufs, 0)
  | _ + 1, [], bufs => some (bufs, 0)
  | k + 1, v :: rest, bufs =>
    match scatter m v count imin bufs with
    | none => none
    | some bufs1 => (fillBuffers m imin count k rest bufs1).map (fun r => (r.1, r.2 + 1))

/-- Lines 555-579 of `fetchsignals`: allocation, frame map, sub-range and
filling of the buffers. -/
def collectSamples (spf : List Nat) (sigmap : List Int) (t0 tf : Int) (src : List (List Int)) :
    Option (List (Option SampleBuf) × Nat) :=
  let m := frameMap spf sigmap
  let imax := imaxOf m spf.sum
  let imin := scanImin m imax.toNat 0
  fillBuffers m imin (imax - (imin : Int) + 1).toNat (tf - t0).toNat src
    (allocBuffers (tf - t0) spf sigmap)

/-- One entry of the `"signal"` array: the signal number and its `samp` values. -/
structure SignalEntry where
  chan : Nat
  samp : List Int
deriving DecidableEq, Repr

/-- The output loop of lines 583-615, from signal `n` on. -/
def emitSignals : List Int → List (Option SampleBuf) → Nat → Option (List SignalEntry)
  | sm :: sms, b :: bs, n =>
    if sm ≥ 0 then
      match b with
      | none => none
      | some buf =>
        match emitSamp buf with
        | none => none
        | some d => (emitSignals sms bs (n + 1)).map (fun r => ⟨n, d⟩ :: r)
    else emitSignals sms bs (n + 1)
  | _, _, _ => some []

/-- Result of `fetchsignals`: the returned value (1 when output was written),
the entries written and the number of frames read. -/
structure SignalOutput where
  written : Bool
  signal : List SignalEntry
  framesRead : Nat
deriving DecidableEq, Repr

/-- The function `fetchsignals` on the signals' `spf` values, the selection
`sigmap`, the count `nosig`, the window and the frames `getframe` yields. -/
def fetchsignals (spf : List Nat) (sigmap : List Int) (nosig : Int) (t0 tf : Int)
    (src : List (List Int)) : Option SignalOutput :=
  if nosig < 1 ∨ t0 ≥ tf then some ⟨false, [], 0⟩
  else
    match collectSamples spf sigmap t0 tf src with
    | none => none
    | some r =>
      match emitSignals sigmap r.1 0 with
      | none => none
      | some out => some ⟨true, out, r.2⟩

/-! ## Annotation extraction: `fetchannotations` (lines 476-531) -/

/-- The fields of a `WFDB_Annotation` that `fetchannotations` prints. -/
structure Annotation where
  time : Int
  anntyp : Int
  subtyp : Int
  chan : Int
  num : Int
deriving DecidableEq, Repr

/-- The WFDB library call `iannsettime(ta0)`: the next annotation read is the
first one at or after `ta0`. -/
def iannsettime (ta0 : Int) (stream : List Annotation) : List Annotation :=
  stream.dropWhile (fun a => decide (a.time < ta0))

/-- The loop of line 508 over the annotations that `getann` yields:
`while (getann(0, &annot) == 0 && (taf <= 0 || annot.time < taf))`. -/
def readAnnotations (taf : Int) : List Annotation → List Annotation
  | [] => []
  | a :: rest => if taf ≤ 0 ∨ a.time < taf then a :: readAnnotations taf rest else []

/-- Rescaling of a frame number to ticks (lines 483-490). -/
def toTicks (tfreq ffreq : ℚ) (t : Int) : Int :=
  if tfreq ≠ ffreq then truncToInt ((t : ℚ) * tfreq / ffreq + 1 / 2) else t

/-- The body of the loop of lines 494-528 for the annotators left: an
annotator is its name with the annotations of its file, `none` when `annopen`
fails. -/
def annotatorLoop (ta0 taf : Int) :
    List (List Char × Option (List Annotation)) → List (List Char × List Annotation)
  | [] => []
  | (_, none) :: rest => annotatorLoop ta0 taf rest
  | (name, some stream) :: rest =>
    (name, readAnnotations taf (if ta0 > 0 then iannsettime ta0 stream else stream))
      :: annotatorLoop ta0 taf rest

/-- The function `fetchannotations`: the returned value and, for each
annotator that opens, its name and the annotations printed. -/
def fetchannotations (annotators : List (List Char × Option (List Annotation)))
    (tfreq ffreq : ℚ) (t0 tf : Int) : Bool × List (List Char × List Annotation) :=
  if annotators.length < 1 then (false, [])
  else (true, annotatorLoop (toTicks tfreq ffreq t0) (toTicks tfreq ffreq tf) annotators)

/-! ## Reference descriptions used in the statements about `fetchsignals` -/

/-- Offset of signal `n` in a frame: the sum of `spf` over the signals before `n`. -/
def slotOffset (spf : List Nat) (n : Nat) : Nat := (spf.take n).sum

/-- Slots `[off, off + k)` of the frame vector `v`. -/
def slots (v : List Int) (off k : Nat) : List Int :=
  (List.range k).map (fun j => v.getD (off + j) 0)

/-- Samples of signal `n` in the given frames, in time order: the concatenation
of the slots `[off_n, off_n + spf_n)` of each frame. -/
def demux (spf : List Nat) (n : Nat) (frames : List (List Int)) : List Int :=
  frames.flatMap (fun v => slots v (slotOffset spf n) (spf.getD n 0))

/-- Values of the slots `i, ..., i + count - 1` of `v` that the frame map `m`
sends to signal `n`, in slot order. -/
def slotsFor (m v : List Int) (n : Nat) : Nat → Nat → List Int
  | 0, _ => []
  | k + 1, i =>
    (if m.getD i 0 = (n : Int) then [v.getD i 0] else []) ++ slotsFor m v n k (i + 1)

/-- The buffers of `fetchsignals` when signal `n` has capacity `cap n` and has
collected the samples `D n`: the collected samples followed by the cells still
zero, for each selected signal. -/
def mkBufs (sigmap : List Int) (cap : Nat → Nat) (D : Nat → List Int) :
    List (Option SampleBuf) :=
  (List.range sigmap.length).map (fun n =>
    if sigmap.getD n 0 ≥ 0 then
      some ⟨D n ++ List.replicate (cap n - (D n).length) 0, (D n).length⟩
    else none)

/-- The entries `fetchsignals` writes when the selected signals have collected
the non-empty sample lists `D n`. -/
def expectedEntries (sigmap : List Int) (D : Nat → List Int) : List SignalEntry :=
  (List.range sigmap.length).filterMap (fun n =>
    if sigmap.getD n 0 ≥ 0 then some ⟨n, intDeltas 0 (D n)⟩ else none)

/-! ## Channel selection: `map_signals` (lines 179-192) -/

/-- The `while` loop of `map_signals` (lines 187-191) over the values that
`get_param_multiple("signal")` yields, on the array `sigmap` and the counter
`nosig`: a token that `ufindsig` resolves to `n >= 0` sets `sigmap[n] = n` and
increments `nosig`. -/
def map_signals_loop (sname : List (List Char)) :
    List (List Char) → List Int → Int → List Int × Int
  | [], sigmap, nosig => (sigmap, nosig)
  | p :: rest, sigmap, nosig =>
    if ufindsig sname p ≥ 0 then
      map_signals_loop sname rest
        (sigmap.set (ufindsig sname p).toNat (ufindsig sname p)) (nosig + 1)
    else map_signals_loop sname rest sigmap nosig

/-- The function `map_signals`: `sigmap` starts as `nsig` entries `-1` and
`nosig` as 0; returns the final `sigmap` and `nosig`. -/
def map_signals (sname : List (List Char)) (tokens : List (List Char)) : List Int × Int :=
  map_signals_loop sname tokens (List.replicate sname.length (-1)) 0

/-- The valid resolved indices of the tokens, in token order. -/
def resolvedIndices (sname : List (List Char)) (tokens : List (List Char)) : List Nat :=
  tokens.filterMap (fun p =>
    if ufindsig sname p ≥ 0 then some (ufindsig sname p).toNat else none)

/-- A list with every repeated entry dropped, in first-occurrence order. -/
def firstOccurrences : List Nat → List Nat
  | [] => []
  | x :: xs => x :: (firstOccurrences xs).filter (fun y => decide (y ≠ x))

/-- The `Selection` of the specification: the distinct valid resolved indices
in first-occurrence order of the tokens. -/
def selectionList (sname : List (List Char)) (tokens : List (List Char)) : List Nat :=
  firstOccurrences (resolvedIndices sname tokens)

/-- The signals that `sigmap` selects, in signal order: the order in which the
output loop of `fetchsignals` (lines 583-615) visits them. -/
def selectedChannels (sigmap : List Int) : List Nat :=
  (List.range sigmap.length).filter (fun n => decide (sigmap.getD n 0 ≥ 0))

/-! ## Response text: the `printf` calls of `fetchsignals`, `fetchannotations`
and `fetch` (lines 492-529, 582-616, 627-636) -/

/-- The text printed by `%d` and `%ld`. -/
def printInt (i : Int) : List Char :=
  if i < 0 then '-' :: Nat.toDigits 10 i.natAbs else Nat.toDigits 10 i.natAbs

/-- What the output loop of `fetchsignals` prints of a signal besides its name
and samples: `units` is `s[n].units` (`none` when `NULL`), `gain` the text that
`%g` prints for `s[n].gain ? s[n].gain : WFDB_DEFGAIN`, `baseline` is
`s[n].baseline`, `scale` the text that `%g` prints for `cal.scale` when `getcal`
succeeds (`none` when it fails). -/
structure SignalText where
  units : Option (List Char)
  gain : List Char
  baseline : Int
  scale : Option (List Char)
deriving DecidableEq, Repr

/-- The values of the `samp` array as printed by lines 608-613: `"%d,"` for each
value but the last, `"%d ]\n      }"` for the last. -/
def sampText : List Int → List Char
  | [] => []
  | [d] => printInt d ++ " ]\n      \x7d".toList
  | d :: e :: ds => printInt d ++ ',' :: sampText (e :: ds)

/-- The text of one entry of the `"signal"` array (lines 590-613). -/
def signalEntryText (sname : List (List Char)) (info : List SignalText) (spf : List Nat)
    (tfreq ffreq : ℚ) (ts0 tsf : Int) (e : SignalEntry) : List Char :=
  "      \x7b \"name\": ".toList ++ strjson (sname.getD e.chan []) ++ ",\n".toList
  ++ (match (info.getD e.chan ⟨none, [], 0, none⟩).units with
      | some u => "        \"units\": ".toList ++ strjson u ++ ",\n".toList
      | none => "        \"units\": \"mV\",\n".toList)
  ++ "        \"t0\": ".toList ++ printInt ts0 ++ ",\n".toList
  ++ "        \"tf\": ".toList ++ printInt tsf ++ ",\n".toList
  ++ "        \"gain\": ".toList ++ (info.getD e.chan ⟨none, [], 0, none⟩).gain ++ ",\n".toList
  ++ "        \"base\": ".toList ++ printInt (info.getD e.chan ⟨none, [], 0, none⟩).baseline
  ++ ",\n".toList
  ++ "        \"tps\": ".toList
  ++ printInt (truncToInt (tfreq / (ffreq * ((spf.getD e.chan 0 : Nat) : ℚ)) + 1 / 2))
  ++ ",\n".toList
  ++ (match (info.getD e.chan ⟨none, [], 0, none⟩).scale with
      | some c => "        \"scale\": ".toList ++ c ++ ",\n".toList
      | none => "        \"scale\": 1,\n".toList)
  ++ "        \"samp\": [ ".toList ++ sampText e.samp

/-- The entries of an array separated as in lines 588-589, 503-504 and
509-510: `sep` is printed before every entry but the first. -/
def separated {α : Type} (render : α → List Char) (sep : List Char) :
    List α → Bool → List Char
  | [], _ => []
  | e :: es, first =>
    (if first then [] else sep) ++ render e ++ separated render sep es false

/-- The text printed by `fetchsignals` (lines 582-616) when its result is
`out`; `nann` is the number of annotators. -/
def fetchsignals_text (sname : List (List Char)) (info : List SignalText) (spf : List Nat)
    (tfreq ffreq : ℚ) (t0 tf : Int) (nann : Nat) (out : SignalOutput) : List Char :=
  if out.written then
    "  \x7b \"signal\":\n    [\n".toList
    ++ separated (signalEntryText sname info spf tfreq ffreq (toTicks tfreq ffreq t0)
        (toTicks tfreq ffreq tf)) ",\n".toList out.signal true
    ++ "\n    ]".toList
    ++ (if nann ≠ 0 then ",\n".toList else "\n  \x7d\n".toList)
  else []

/-- The text of one annotation (lines 511-524).  `annstr` is the WFDB library
function of that name; `aux a` is the text `annot.aux + 1` of the annotation,
`none` when `annot.aux` is `NULL` or empty. -/
def annotationText (annstr : Int → List Char) (aux : Annotation → Option (List Char))
    (a : Annotation) : List Char :=
  "\n          \x7b \"t\": ".toList ++ printInt a.time ++ ",\n".toList
  ++ "            \"a\": ".toList ++ strjson (annstr a.anntyp) ++ ",\n".toList
  ++ "            \"s\": ".toList ++ printInt a.subtyp ++ ",\n".toList
  ++ "            \"c\": ".toList ++ printInt a.chan ++ ",\n".toList
  ++ "            \"n\": ".toList ++ printInt a.num ++ ",\n".toList
  ++ (match aux a with
      | some x => "            \"x\": ".toList ++ strjson x ++ "\n".toList
      | none => "            \"x\": null\n".toList)
  ++ "          \x7d".toList

/-- The text printed for one annotator that opens (lines 503-526, without the
separating comma). -/
def annotatorText (annstr : Int → List Char) (aux : Annotation → Option (List Char))
    (r : List Char × List Annotation) : List Char :=
  "\n      \x7b \"name\": \"".toList ++ r.1 ++ "\",\n".toList
  ++ "        \"annotation\":\n".toList
  ++ "        [".toList
  ++ separated (annotationText annstr aux) [','] r.2 true
  ++ "\n        ]\n      \x7d".toList

/-- The text printed by `fetchannotations` (lines 492-529) when its result is
`r`; `nosig` is the global counter. -/
def fetchannotations_text (annstr : Int → List Char) (aux : Annotation → Option (List Char))
    (nosig : Int) (r : Bool × List (List Char × List Annotation)) : List Char :=
  if r.1 then
    "  ".toList ++ [if nosig > 0 then ' ' else '\x7b'] ++ " \"annotator\":\n    [".toList
    ++ separated (annotatorText annstr aux) [','] r.2 true
    ++ "\n    ]\n  \x7d\n".toList
  else []

/-- The printing part of `fetch` (lines 633-635) on the globals that the
`prep_` functions have set; `none` when `fetchsignals` touches memory outside
an allocation. -/
def fetch_output (annstr : Int → List Char) (aux : Annotation → Option (List Char))
    (sname : List (List Char)) (info : List SignalText) (spf : List Nat)
    (sigmap : List Int) (nosig : Int)
    (annotators : List (List Char × Option (List Annotation)))
    (tfreq ffreq : ℚ) (t0 tf : Int) (src : List (List Int)) : Option (List Char) :=
  match fetchsignals spf sigmap nosig t0 tf src with
  | none => none
  | some sig =>
    some ("\x7b \"fetch\":\n".toList
      ++ fetchsignals_text sname info spf tfreq ffreq t0 tf annotators.length sig
      ++ fetchannotations_text annstr aux nosig
          (fetchannotations annotators tfreq ffreq t0 tf)
      ++ (if sig.written.toNat + (fetchannotations annotators tfreq ffreq t0 tf).1.toNat = 0
          then "null".toList else [])
      ++ "\x7d\n".toList)

/-- The constant `WFDB_DEFFREQ` of the WFDB library. -/
def WFDB_DEFFREQ : ℚ := 250

/-- The constant `NAMAX` (line 54). -/
def NAMAX : Nat := 16

/-- The loop of lines 162-163 of `prep_signals`, with a bound on the iterations
of each call of `approx_LCM`; the product `ffreq * s[n].spf` is a `double`. -/
def tickFrequency (fuel : Nat) (ffreq : ℚ) : List Nat → ℚ → Option ℚ
  | [], tfreq => some tfreq
  | spf :: rest, tfreq =>
    match toDouble (ffreq * (spf : ℚ)) with
    | none => none
    | some f =>
      match approx_LCM fuel f tfreq with
      | none => none
      | some r => tickFrequency fuel ffreq rest r.1

/-- The function `prep_annotators`: at most `NAMAX` values of the parameter
"annotator" are kept. -/
def prep_annotators (params : List (List Char × Option (List Annotation))) :
    List (List Char × Option (List Annotation)) :=
  params.take NAMAX

/-- The function `fetch` on a record with the signal descriptions `desc`, the
samples per frame `spf`, the printed fields `info` and the frame frequency
`sampfreq`; `signalParams` and `annotatorParams` are the values of the
parameters "signal" and "annotator", `start` and `dtParam` are as in
`prep_times`, `src` lists the frames that `getframe` yields. -/
def fetch (fuel : Nat) (annstr : Int → List Char) (aux : Annotation → Option (List Char))
    (desc : List (List Char)) (info : List SignalText) (spf : List Nat) (sampfreq : ℚ)
    (signalParams : List (List Char))
    (annotatorParams : List (List Char × Option (List Annotation)))
    (start : Int) (dtParam : Option (List Char)) (src : List (List Int)) :
    Option (List Char) :=
  match tickFrequency fuel (if sampfreq ≤ 0 then WFDB_DEFFREQ else sampfreq) spf
      (if sampfreq ≤ 0 then WFDB_DEFFREQ else sampfreq) with
  | none => none
  | some tfreq =>
    fetch_output annstr aux (force_unique_signames desc) info spf
      (if 0 < desc.length then map_signals (force_unique_signames desc) signalParams
        else ([], 0)).1
      (if 0 < desc.length then map_signals (force_unique_signames desc) signalParams
        else ([], 0)).2
      (prep_annotators annotatorParams) tfreq
      (if sampfreq ≤ 0 then WFDB_DEFFREQ else sampfreq)
      (prep_times (if sampfreq ≤ 0 then WFDB_DEFFREQ else sampfreq) start dtParam).t0
      (prep_times (if sampfreq ≤ 0 then WFDB_DEFFREQ else sampfreq) start dtParam).tf src

/-! ## Theorems -/

theorem wrapInt_of_isInt (x : Int) (h : isInt x) : wrapInt x = x := by
  unfold isInt at h
  unfold wrapInt
  omega

theorem intDeltas_append (prev : Int) (xs : List Int) (x : Int) :
    intDeltas prev (xs ++ [x]) = intDeltas prev xs ++ [wrapInt (x - xs.getLastD prev)] := by
  induction xs generalizing prev with
  | nil => rfl
  | cons y ys ih =>
    cases ys with
    | nil => rfl
    | cons z zs =>
      have e := ih y
      simp only [List.cons_append, intDeltas] at e ⊢
      rw [e]
      rfl

theorem deltaLoop_eq (cells : List Int) (k sbo : Nat) (prev : Int)
    (h : sbo + k ≤ cells.length) :
    deltaLoop cells k sbo prev
      = some (intDeltas prev ((cells.drop sbo).take k), sbo + k,
          ((cells.drop sbo).take k).getLastD prev) := by
  induction k generalizing sbo prev with
  | zero => simp [deltaLoop, intDeltas]
  | succ k ih =>
    have hlt : sbo < cells.length := by omega
    have hd : cells.drop sbo = cells[sbo] :: cells.drop (sbo + 1) :=
      List.drop_eq_getElem_cons hlt
    have hg : cells.get? sbo = some cells[sbo] := by
      simp [List.getElem?_eq_getElem hlt]
    rw [deltaLoop, hg]
    simp only
    rw [ih (sbo + 1) cells[sbo] (by omega), hd]
    simp only [List.take_succ_cons, intDeltas]
    have e : sbo + 1 + k = sbo + (k + 1) := by omega
    rw [e]
    cases hh : List.take k (List.drop (sbo + 1) cells) with
    | nil => simp
    | cons a l => rfl

theorem emitSamp_collected (r pad : List Int) (h : r ≠ []) :
    emitSamp ⟨r ++ pad, r.length⟩ = some (intDeltas 0 r) := by
  obtain ⟨xs, x, rfl⟩ : ∃ xs x, r = xs ++ [x] :=
    ⟨r.dropLast, r.getLast h, (List.dropLast_append_getLast h).symm⟩
  have hl : xs.length + 1 - 1 = xs.length := by omega
  have hle : 0 + xs.length ≤ (xs ++ [x] ++ pad).length := by simp
  have ht : List.take xs.length (xs ++ [x] ++ pad) = xs := by
    rw [List.append_assoc, List.take_left]
  have hg : (xs ++ [x] ++ pad).get? xs.length = some x := by
    rw [List.append_assoc, List.get?_eq_getElem?, List.getElem?_append_right (le_refl _)]
    simp
  simp only [emitSamp, List.length_append, List.length_cons, List.length_nil, Nat.zero_add, hl]
  rw [deltaLoop_eq _ _ _ _ hle]
  simp only [List.drop_zero, ht, Nat.zero_add, hg, intDeltas_append]

theorem length_intDeltas (prev : Int) (r : List Int) :
    (intDeltas prev r).length = r.length := by
  induction r generalizing prev with
  | nil => rfl
  | cons x xs ih => simp [intDeltas, ih]

theorem intDeltas_getD (prev : Int) (r : List Int) (i : Nat) (h : i < r.length) :
    (intDeltas prev r).getD i 0
      = wrapInt (r.getD i 0 - (if i = 0 then prev else r.getD (i - 1) 0)) := by
  induction r generalizing prev i with
  | nil => simp at h
  | cons x xs ih =>
    cases i with
    | zero => simp [intDeltas]
    | succ i =>
      have hi : i < xs.length := by simpa using h
      simp only [intDeltas, List.getD_cons_succ, ih x i hi]
      cases i with
      | zero => simp
      | succ i => simp

theorem intSum_intDeltas (acc : Int) (r : List Int) (hacc : isInt acc)
    (hr : ∀ x ∈ r, isInt x) : intSum acc (intDeltas acc r) = r := by
  induction r generalizing acc with
  | nil => rfl
  | cons x xs ih =>
    have hx : isInt x := hr x (List.mem_cons_self _ _)
    have e : wrapInt (acc + wrapInt (x - acc)) = x := by
      unfold isInt at hx hacc
      unfold wrapInt
      omega
    simp only [intDeltas, intSum, e]
    rw [ih x hx (fun y hy => hr y (List.mem_cons_of_mem _ hy))]

theorem runningSum_deltaEncode (acc : Int) (r : List Int) :
    runningSum acc (deltaEncode acc r) = r := by
  induction r generalizing acc with
  | nil => rfl
  | cons x xs ih =>
    simp only [deltaEncode, runningSum]
    have e : acc + (x - acc) = x := by omega
    rw [e, ih]

theorem intDeltas_eq_deltaEncode (prev : Int) (r : List Int)
    (h : ∀ i, i < r.length →
      isInt (r.getD i 0 - (if i = 0 then prev else r.getD (i - 1) 0))) :
    intDeltas prev r = deltaEncode prev r := by
  induction r generalizing prev with
  | nil => rfl
  | cons x xs ih =>
    have h0 := h 0 (by simp)
    simp only [List.getD_cons_zero, if_true] at h0
    simp only [intDeltas, deltaEncode, wrapInt_of_isInt _ h0]
    rw [ih x]
    intro i hi
    have := h (i + 1) (by simpa using hi)
    cases i with
    | zero => simpa using this
    | succ i => simpa using this

/-- C1 (counterexample): the samples 2147483647, -2147483648, 5 are emitted as
2147483647, 1, -2147483643: the second value is not the difference
-4294967295 of the claim, and the plain running sum of the emitted values is
not the sample sequence. -/
theorem delta_encoding_wraps :
    emitSamp ⟨[2147483647, -2147483648, 5], 3⟩ = some [2147483647, 1, -2147483643]
    ∧ ¬ ([2147483647, 1, -2147483643] : List Int).getD 1 0 = -2147483648 - 2147483647
    ∧ ¬ runningSum 0 [2147483647, 1, -2147483643] = [2147483647, -2147483648, 5] := by
  decide

/-- C1 (amended): for every non-empty sequence `r` of `int` samples collected
in a channel buffer (whatever follows them in the allocation), the `samp`
values emitted by `fetchsignals` are defined, as many as the samples, start
with `r[0] - 0` and continue with the differences `r[i] - r[i-1]` taken in
32-bit `int` arithmetic, and their running sum from zero in the same
arithmetic is `r`; when every difference `r[i] - r[i-1]` is in the range of
`int`, the emitted values are the first differences themselves and their
plain running sum from zero is `r`. -/
theorem delta_encoding_roundtrip (r pad : List Int) (h : r ≠ [])
    (hr : ∀ x ∈ r, isInt x) :
    ∃ d, emitSamp ⟨r ++ pad, r.length⟩ = some d
      ∧ d.length = r.length
      ∧ d.getD 0 0 = r.getD 0 0 - 0
      ∧ (∀ i, 1 ≤ i → i < r.length →
          d.getD i 0 = wrapInt (r.getD i 0 - r.getD (i - 1) 0))
      ∧ intSum 0 d = r
      ∧ ((∀ i, 1 ≤ i → i < r.length → isInt (r.getD i 0 - r.getD (i - 1) 0)) →
          (∀ i, 1 ≤ i → i < r.length → d.getD i 0 = r.getD i 0 - r.getD (i - 1) 0)
          ∧ runningSum 0 d = r) := by
  have hpos : 0 < r.length := List.length_pos.mpr h
  have h0 : isInt (r.getD 0 0) := by
    apply hr
    rw [List.getD_eq_getElem?_getD, List.getElem?_eq_getElem hpos]
    exact List.getElem_mem hpos
  refine ⟨intDeltas 0 r, emitSamp_collected r pad h, length_intDeltas 0 r, ?_, ?_,
    intSum_intDeltas 0 r (by unfold isInt; omega) hr, ?_⟩
  · rw [intDeltas_getD 0 r 0 hpos, if_pos rfl, Int.sub_zero, wrapInt_of_isInt _ h0]
  · intro i h1 h2
    rw [intDeltas_getD 0 r i h2, if_neg (by omega)]
  · intro hd
    have hall : ∀ i, i < r.length →
        isInt (r.getD i 0 - (if i = 0 then 0 else r.getD (i - 1) 0)) := by
      intro i hi
      by_cases hi0 : i = 0
      · rw [if_pos hi0, hi0, Int.sub_zero]; exact h0
      · rw [if_neg hi0]; exact hd i (by omega) hi
    constructor
    · intro i h1 h2
      rw [intDeltas_getD 0 r i h2, if_neg (by omega), wrapInt_of_isInt _ (hd i h1 h2)]
    · rw [intDeltas_eq_deltaEncode 0 r hall]
      exact runningSum_deltaEncode 0 r

/-- C1 (witness): the raw samples 100, 103, 101 are emitted as 100, 3, -2. -/
theorem delta_encoding_roundtrip_witness :
    ([100, 103, 101] : List Int) ≠ []
    ∧ emitSamp ⟨[100, 103, 101], 3⟩ = some [100, 3, -2]
    ∧ runningSum 0 [100, 3, -2] = [100, 103, 101] := by
  have hr : ∀ x ∈ ([100, 103, 101] : List Int), isInt x := by
    unfold isInt; decide
  have hdiff : ∀ i, 1 ≤ i → i < ([100, 103, 101] : List Int).length →
      isInt (([100, 103, 101] : List Int).getD i 0
        - ([100, 103, 101] : List Int).getD (i - 1) 0) := by
    unfold isInt; decide
  obtain ⟨d, hd, -, -, -, -, hs⟩ :=
    delta_encoding_roundtrip [100, 103, 101] [] (by decide) hr
  have he : emitSamp ⟨[100, 103, 101], 3⟩ = some [100, 3, -2] := by decide
  have hd2 : some [100, 3, -2] = some d := by
    rw [← he, ← hd]; rfl
  cases hd2
  exact ⟨by decide, he, (hs hdiff).2⟩

theorem atoiDigits_eq_foldl (p : List Char) (acc : Nat) (h : ∀ c ∈ p, isdigit c = true) :
    atoiDigits acc p = p.foldl (fun a c => 10 * a + (c.toNat - '0'.toNat)) acc := by
  induction p generalizing acc with
  | nil => rfl
  | cons c cs ih =>
    have hc : isdigit c = true := h c (List.mem_cons_self _ _)
    simp only [atoiDigits, hc, if_true, List.foldl_cons]
    exact ih _ (fun d hd => h d (List.mem_cons_of_mem _ hd))

theorem strtol_of_digits (p : List Char) (h : ∀ c ∈ p, isdigit c = true) :
    strtol p = min LONG_MAX (decimalValue p : Int) := by
  cases p with
  | nil => rfl
  | cons c cs =>
    have hc : isdigit c = true := h c (List.mem_cons_self _ _)
    have hs : isspace c = false := by
      have h1 : 48 ≤ c.toNat := by
        simp only [isdigit, Bool.and_eq_true, decide_eq_true_eq] at hc
        exact hc.1
      cases hsp : isspace c with
      | false => rfl
      | true =>
        simp only [isspace, Bool.or_eq_true, decide_eq_true_eq] at hsp
        rcases hsp with ((((hsp | hsp) | hsp) | hsp) | hsp) | hsp <;>
          (rw [hsp] at h1; revert h1; decide)
    have hm : c ≠ '-' := by
      intro e; rw [e] at hc; revert hc; decide
    have hp : c ≠ '+' := by
      intro e; rw [e] at hc; revert hc; decide
    have hd : List.dropWhile isspace (c :: cs) = c :: cs := by
      simp [List.dropWhile, hs]
    unfold strtol
    rw [hd]
    split
    · rename_i r heq
      exact absurd (List.cons.inj heq).1 hm
    · rename_i r heq
      exact absurd (List.cons.inj heq).1 hp
    · rw [atoiDigits_eq_foldl _ _ h]; rfl

/-- On a token of decimal digits whose value fits in `int`, `atoi` returns the
value. -/
theorem atoi_of_digits (p : List Char) (h : ∀ c ∈ p, isdigit c = true)
    (hv : decimalValue p < 2147483648) : atoi p = (decimalValue p : Int) := by
  unfold atoi
  rw [strtol_of_digits p h]
  have h1 : min LONG_MAX (decimalValue p : Int) = (decimalValue p : Int) := by
    apply min_eq_right
    unfold LONG_MAX
    omega
  rw [h1]
  unfold wrapInt
  omega

/-- The value of `atoi` is an `int`. -/
theorem atoi_isInt (p : List Char) : isInt (atoi p) := by
  unfold atoi wrapInt isInt
  omega

theorem findName_none (p : List Char) (l : List (List Char)) (i : Nat)
    (h : ∀ nm ∈ l, nm ≠ p) : findName p l i = -1 := by
  induction l generalizing i with
  | nil => rfl
  | cons nm rest ih =>
    have h1 : p ≠ nm := fun e => h nm (List.mem_cons_self _ _) e.symm
    simp only [findName, h1, if_false]
    exact ih _ (fun x hx => h x (List.mem_cons_of_mem _ hx))

theorem findName_first (p : List Char) (l : List (List Char)) (i k : Nat)
    (hk : l.get? k = some p) (hf : ∀ j, j < k → l.get? j ≠ some p) :
    findName p l i = ((i + k : Nat) : Int) := by
  induction l generalizing i k with
  | nil => simp at hk
  | cons nm rest ih =>
    cases k with
    | zero =>
      have e : nm = p := by simpa using hk
      simp [findName, e]
    | succ k =>
      have h0 : p ≠ nm := by
        intro e
        exact hf 0 (Nat.succ_pos _) (by simp [e])
      simp only [findName, h0, if_false]
      have hk2 : rest.get? k = some p := by simpa using hk
      have hf2 : ∀ j, j < k → rest.get? j ≠ some p := by
        intro j hj
        have := hf (j + 1) (Nat.succ_lt_succ hj)
        simpa using this
      rw [ih (i + 1) k hk2 hf2]
      congr 1
      omega

/-- C5: with `nsig` an `int` (the number of display names is below 2^31), a
token made only of decimal digits whose numeric value is below `nsig` resolves
to that value, whatever the display names are; a token with a
character that is not a digit resolves to the first index whose display name
equals it, and to -1 when no display name equals it. -/
theorem ufindsig_resolves (sname : List (List Char)) (p : List Char) :
    (sname.length < 2147483648 →
      (∀ c ∈ p, isdigit c = true) → decimalValue p < sname.length →
        ufindsig sname p = (decimalValue p : Int))
    ∧ ((∃ c ∈ p, isdigit c = false) →
        (∀ i, sname.get? i = some p → (∀ j, j < i → sname.get? j ≠ some p) →
            ufindsig sname p = (i : Int))
        ∧ ((∀ nm ∈ sname, nm ≠ p) → ufindsig sname p = -1)) := by
  constructor
  · intro hn hd hv
    have h1 : p.dropWhile isdigit = [] := by
      rw [List.dropWhile_eq_nil_iff]; exact hd
    have h2 : atoi p < (sname.length : Int) := by
      rw [atoi_of_digits p hd (by omega)]; exact_mod_cast hv
    simp only [ufindsig, h1, h2, if_true]
    exact atoi_of_digits p hd (by omega)
  · intro hn
    have h1 : p.dropWhile isdigit ≠ [] := by
      rw [Ne, List.dropWhile_eq_nil_iff]
      intro hall
      obtain ⟨c, hc, hcd⟩ := hn
      rw [hall c hc] at hcd
      exact Bool.noConfusion hcd
    constructor
    · intro i hi hf
      simp only [ufindsig, h1, if_false]
      rw [findName_first p sname 0 i hi hf]
      simp
    · intro hno
      simp only [ufindsig, h1, if_false]
      exact findName_none p sname 0 hno

/-- C5 (witness): with three display names the token "2" resolves to index 2
even though the display name at index 0 is "2"; the token "ecg" resolves to the
first channel of that name and the token "x1" to -1. -/
theorem ufindsig_resolves_witness :
    ufindsig ["2".toList, "ecg".toList, "ecg".toList] "2".toList = 2
    ∧ ufindsig ["2".toList, "ecg".toList, "ecg".toList] "ecg".toList = 1
    ∧ ufindsig ["2".toList, "ecg".toList, "ecg".toList] "x1".toList = -1 :=
  ⟨(ufindsig_resolves ["2".toList, "ecg".toList, "ecg".toList] "2".toList).1
      (by decide) (by decide) (by decide),
   ((ufindsig_resolves ["2".toList, "ecg".toList, "ecg".toList] "ecg".toList).2
      ⟨'e', by decide, by decide⟩).1 1 (by decide) (by decide),
   ((ufindsig_resolves ["2".toList, "ecg".toList, "ecg".toList] "x1".toList).2
      ⟨'x', by decide, by decide⟩).2 (by decide)⟩

theorem truncToInt_intCast (n : Int) : truncToInt (n : ℚ) = n := by
  simp [truncToInt]

theorem atoi_150 : atoi ['1', '5', '0'] = 150 := by decide

/-- C7 (counterexample): at frame rate 1 the duration "150" gives a frame
count of 150, not 120. -/
theorem prep_times_150_not_clamped :
    (prep_times 1 0 (some ['1', '5', '0'])).dt = 150
    ∧ ¬ (prep_times 1 0 (some ['1', '5', '0'])).dt = 120 := by
  have h : (prep_times 1 0 (some ['1', '5', '0'])).dt = 150 := by
    have e : ((150 : Int) : ℚ) * 1 = ((150 : Int) : ℚ) := by norm_num
    simp only [prep_times, Option.getD_some, atoi_150, prep_times_dt, e, truncToInt_intCast]
    norm_num
  rw [h]
  exact ⟨rfl, by decide⟩

/-- C7 (amended): at frame rate 1 the duration "150" is not clamped: 150 frames
do not exceed 120000, so `dt = 150` and `tf = t0 + 150` for every start time.
The clamp needs a count above both 120 seconds and 120000 frames: at frame
rate 1000 the duration "150" gives `dt = 120000`, 120 seconds of frames. -/
theorem prep_times_clamp (start : Int) :
    (prep_times 1 start (some ['1', '5', '0'])).dt = 150
    ∧ (prep_times 1 start (some ['1', '5', '0'])).tf
        = (prep_times 1 start (some ['1', '5', '0'])).t0 + 150
    ∧ (prep_times 1000 start (some ['1', '5', '0'])).dt = 120000
    ∧ (prep_times 1000 start (some ['1', '5', '0'])).tf
        = (prep_times 1000 start (some ['1', '5', '0'])).t0 + 120 * 1000 := by
  have e1 : ((150 : Int) : ℚ) * 1 = ((150 : Int) : ℚ) := by norm_num
  have e2 : ((150 : Int) : ℚ) * 1000 = ((150000 : Int) : ℚ) := by norm_num
  have e3 : (120 : ℚ) * 1000 = ((120000 : Int) : ℚ) := by norm_num
  have h1 : prep_times_dt 1 150 = 150 := by
    simp only [prep_times_dt, e1, truncToInt_intCast]
    norm_num
  have h2 : prep_times_dt 1000 150 = 120000 := by
    simp only [prep_times_dt, e2, e3, truncToInt_intCast]
    norm_num
  simp only [prep_times, Option.getD_some, atoi_150, h1, h2]
  norm_num

theorem roundEven_intCast (n : Int) : roundEven (n : ℚ) = n := by
  unfold roundEven
  simp

theorem roundEven_le_of_lt_half (q : ℚ) (N : Int) (h : q < (N : ℚ) + 1 / 2) :
    roundEven q ≤ N := by
  have h0 : (⌊q⌋ : ℚ) ≤ q := Int.floor_le q
  unfold roundEven
  split_ifs with h1 h2 h3
  · have : (⌊q⌋ : ℚ) < ((N + 1 : Int) : ℚ) := by push_cast; linarith
    have := Int.cast_lt.mp this
    omega
  · have : (⌊q⌋ : ℚ) < ((N : Int) : ℚ) := by linarith
    have := Int.cast_lt.mp this
    omega
  · have : (⌊q⌋ : ℚ) < ((N : Int) : ℚ) := by linarith
    have := Int.cast_lt.mp this
    omega
  · have : (⌊q⌋ : ℚ) < ((N : Int) : ℚ) := by linarith
    have := Int.cast_lt.mp this
    omega

theorem roundEven_eval_lt (q : ℚ) (R : Int) (h1 : (R : ℚ) - 1 / 2 < q)
    (h2 : q < (R : ℚ) + 1 / 2) : roundEven q = R := by
  apply le_antisymm (roundEven_le_of_lt_half q R h2)
  have h0 : (⌊q⌋ : ℚ) ≤ q := Int.floor_le q
  have h3 : q < (⌊q⌋ : ℚ) + 1 := Int.lt_floor_add_one q
  have hf : R - 1 ≤ ⌊q⌋ := by
    have : ((R - 1 : Int) : ℚ) < ((⌊q⌋ + 1 : Int) : ℚ) := by push_cast; linarith
    have := Int.cast_lt.mp this
    omega
  unfold roundEven
  split_ifs with h4 h5 h6
  · have : ((R - 1 : Int) : ℚ) < ((⌊q⌋ : Int) : ℚ) := by push_cast; linarith
    have := Int.cast_lt.mp this
    omega
  · omega
  · have a1 : ((R - 1 : Int) : ℚ) < ((⌊q⌋ : Int) : ℚ) := by push_cast; linarith
    have a2 : ((⌊q⌋ : Int) : ℚ) < ((R : Int) : ℚ) := by linarith
    have := Int.cast_lt.mp a1
    have := Int.cast_lt.mp a2
    omega
  · have a1 : ((R - 1 : Int) : ℚ) < ((⌊q⌋ : Int) : ℚ) := by push_cast; linarith
    have a2 : ((⌊q⌋ : Int) : ℚ) < ((R : Int) : ℚ) := by linarith
    have := Int.cast_lt.mp a1
    have := Int.cast_lt.mp a2
    omega

theorem log_eq_of_bounds (a : ℚ) (L : Int) (h1 : (2 : ℚ) ^ L ≤ a) (h2 : a < (2 : ℚ) ^ (L + 1)) :
    Int.log 2 a = L := by
  have ha : 0 < a := lt_of_lt_of_le (zpow_pos (by norm_num) L) h1
  have hb : 1 < 2 := by decide
  have c1 : L ≤ Int.log 2 a := by
    rw [← Int.zpow_le_iff_le_log hb ha]
    exact_mod_cast h1
  have c2 : Int.log 2 a < L + 1 := by
    rw [← Int.lt_zpow_iff_log_lt hb ha]
    exact_mod_cast h2
  omega

theorem ulpExp_eq (t : ℚ) (L : Int) (h1 : (2 : ℚ) ^ L ≤ |t|) (h2 : |t| < (2 : ℚ) ^ (L + 1)) :
    ulpExp t = max (L - 52) (-1074) := by
  unfold ulpExp
  rw [log_eq_of_bounds |t| L h1 h2]

theorem fl_eval (t : ℚ) (L e R : Int) (he : max (L - 52) (-1074) = e)
    (h1 : (2 : ℚ) ^ L ≤ |t|) (h2 : |t| < (2 : ℚ) ^ (L + 1))
    (hR : roundEven (t / (2 : ℚ) ^ e) = R) : fl t = (R : ℚ) * (2 : ℚ) ^ e := by
  unfold fl
  rw [ulpExp_eq t L h1 h2, he, hR]

theorem fl_zero : fl 0 = 0 := by
  unfold fl
  rw [zero_div]
  have := roundEven_intCast 0
  rw [Int.cast_zero] at this
  rw [this, Int.cast_zero, zero_mul]

theorem log_lt_of_abs_lt (t : ℚ) (j : Int) (ht : t ≠ 0) (h : |t| < (2 : ℚ) ^ j) :
    Int.log 2 |t| < j := by
  have ha : 0 < |t| := abs_pos.mpr ht
  have hb : 1 < 2 := by decide
  rw [← Int.lt_zpow_iff_log_lt hb ha]
  exact_mod_cast h

theorem zpow_on_grid (j e : Int) (h : e ≤ j) :
    (2 : ℚ) ^ j = (((2 : Int) ^ (j - e).toNat : Int) : ℚ) * (2 : ℚ) ^ e := by
  have h1 : j = ((j - e).toNat : Int) + e := by
    rw [Int.toNat_of_nonneg (by omega)]; ring
  have h2 : (2 : ℚ) ^ j = (2 : ℚ) ^ (((j - e).toNat : Int) + e) := by rw [← h1]
  rw [h2, zpow_add₀ (by norm_num), zpow_natCast]
  push_cast
  rfl

theorem fl_exact (n e : Int) (hn : |n| < 2 ^ 53) (he : -1074 ≤ e) :
    fl ((n : ℚ) * (2 : ℚ) ^ e) = (n : ℚ) * (2 : ℚ) ^ e := by
  have hp : (0 : ℚ) < (2 : ℚ) ^ e := zpow_pos (by norm_num) _
  by_cases h0 : n = 0
  · rw [h0, Int.cast_zero, zero_mul, fl_zero]
  · have ht : (n : ℚ) * (2 : ℚ) ^ e ≠ 0 := mul_ne_zero (by exact_mod_cast h0) (ne_of_gt hp)
    have habs : |(n : ℚ) * (2 : ℚ) ^ e| < (2 : ℚ) ^ (53 + e) := by
      rw [abs_mul, abs_of_pos hp, zpow_add₀ (by norm_num)]
      apply mul_lt_mul_of_pos_right _ hp
      have : ((|n| : Int) : ℚ) < (((2 : Int) ^ 53 : Int) : ℚ) := by exact_mod_cast hn
      rw [Int.cast_abs] at this
      rw [show ((2 : ℚ) ^ (53 : Int)) = (((2 : Int) ^ 53 : Int) : ℚ) by norm_num]
      exact this
    have hlog := log_lt_of_abs_lt _ _ ht habs
    have hu : ulpExp ((n : ℚ) * (2 : ℚ) ^ e) ≤ e := by
      unfold ulpExp
      exact max_le (by omega) he
    have hg := zpow_on_grid e (ulpExp ((n : ℚ) * (2 : ℚ) ^ e)) hu
    have hpu : (0 : ℚ) < (2 : ℚ) ^ ulpExp ((n : ℚ) * (2 : ℚ) ^ e) := zpow_pos (by norm_num) _
    have hq : (n : ℚ) * (2 : ℚ) ^ e / (2 : ℚ) ^ ulpExp ((n : ℚ) * (2 : ℚ) ^ e)
        = ((n * (2 : Int) ^ (e - ulpExp ((n : ℚ) * (2 : ℚ) ^ e)).toNat : Int) : ℚ) := by
      rw [div_eq_iff (ne_of_gt hpu)]
      nth_rewrite 1 [hg]
      push_cast
      ring
    unfold fl
    rw [hq, roundEven_intCast]
    nth_rewrite 3 [hg]
    push_cast
    ring

theorem toDouble_exact (n e : Int) (hn : |n| < 2 ^ 53) (he : -1074 ≤ e)
    (hfin : |(n : ℚ) * (2 : ℚ) ^ e| ≤ DBL_MAX) :
    toDouble ((n : ℚ) * (2 : ℚ) ^ e) = some ((n : ℚ) * (2 : ℚ) ^ e) := by
  unfold toDouble
  rw [fl_exact n e hn he, if_pos hfin]


theorem TOL_eq : TOL = 1152921504606847 / 1152921504606846976 := by
  unfold TOL
  rw [fl_eval (1 / 1000) (-10) (-62) 4611686018427388 (by decide) (by norm_num [abs_of_pos])
    (by norm_num [abs_of_pos]) (roundEven_eval_lt _ _ (by norm_num) (by norm_num))]
  norm_num

theorem zpow_le_DBL_MAX (j : Int) (hj : j ≤ 1023) : (2 : ℚ) ^ j ≤ DBL_MAX := by
  have h1 : (2 : ℚ) ^ j ≤ (2 : ℚ) ^ (1023 : Int) := zpow_le_zpow_right₀ (by norm_num) hj
  have h2 : (2 : ℚ) ^ (1023 : Int) ≤ DBL_MAX := by
    unfold DBL_MAX
    norm_num
  exact le_trans h1 h2

theorem toDouble_zero : toDouble 0 = some 0 := by
  unfold toDouble
  rw [fl_zero, abs_zero, if_pos (le_trans (le_of_lt (zpow_pos (by norm_num) 0))
    (zpow_le_DBL_MAX 0 (by decide)))]

theorem toDouble_one : toDouble 1 = some 1 := by
  have h : |((1 : Int) : ℚ) * (2 : ℚ) ^ (0 : Int)| ≤ DBL_MAX := by
    have := zpow_le_DBL_MAX 0 (by decide)
    simpa using this
  have := toDouble_exact 1 0 (by decide) (by decide) h
  simpa using this

/-- The loop test fails, so the loop ends, when the two values are equal. -/
theorem approx_LCM_test_eq (y : ℚ) (hy : y ≠ 0) : approx_LCM_test y y = some false := by
  unfold approx_LCM_test
  rw [div_self hy, toDouble_one]
  simp only [sub_self, toDouble_zero, TOL_eq]
  norm_num

theorem approx_LCM_loop_done (x0 y0 x y : ℚ) (fuel : Nat)
    (h : approx_LCM_test x y = some false) :
    approx_LCM_loop x0 y0 fuel x y = some (x, 0) := by
  cases fuel <;> simp only [approx_LCM_loop, h]

theorem mkBufs_congr (sigmap : List Int) (cap : Nat → Nat) (D D1 : Nat → List Int)
    (h : ∀ n, n < sigmap.length → sigmap.getD n 0 ≥ 0 → D n = D1 n) :
    mkBufs sigmap cap D = mkBufs sigmap cap D1 := by
  unfold mkBufs
  apply List.map_congr_left
  intro n hn
  by_cases hs : sigmap.getD n 0 ≥ 0
  · rw [h n (List.mem_range.mp hn) hs]
  · simp only [hs, if_false]

theorem mkBufs_get (sigmap : List Int) (cap : Nat → Nat) (D : Nat → List Int) (n : Nat)
    (hn : n < sigmap.length) :
    (mkBufs sigmap cap D)[n]? = some (if sigmap.getD n 0 ≥ 0 then
      some ⟨D n ++ List.replicate (cap n - (D n).length) 0, (D n).length⟩ else none) := by
  unfold mkBufs
  rw [List.getElem?_map, List.getElem?_range hn]
  rfl

theorem storeSample_mkBufs (sigmap : List Int) (cap : Nat → Nat) (D : Nat → List Int)
    (n : Nat) (x : Int) (hn : n < sigmap.length) (hsel : sigmap.getD n 0 ≥ 0)
    (hroom : (D n).length < cap n) :
    storeSample (mkBufs sigmap cap D) n x
      = some (mkBufs sigmap cap (Function.update D n (D n ++ [x]))) := by
  have hget := mkBufs_get sigmap cap D n hn
  rw [if_pos hsel] at hget
  unfold storeSample
  rw [List.get?_eq_getElem?, hget]
  have hpos : (D n).length < (D n ++ List.replicate (cap n - (D n).length) 0).length := by
    rw [List.length_append, List.length_replicate]; omega
  simp only [hpos, if_true]
  congr 1
  apply List.ext_getElem?
  intro k
  by_cases hk : k = n
  · subst hk
    have hlen : k < (mkBufs sigmap cap D).length := by
      unfold mkBufs; simpa using hn
    rw [List.getElem?_set_self hlen, mkBufs_get _ _ _ _ hn, if_pos hsel]
    simp only [Function.update_same, List.length_append, List.length_singleton]
    have hrep : List.replicate (cap k - (D k).length) (0 : Int)
        = 0 :: List.replicate (cap k - ((D k).length + 1)) 0 := by
      have e : cap k - (D k).length = (cap k - ((D k).length + 1)) + 1 := by omega
      rw [e]; rfl
    rw [hrep, List.set_append_right _ _ (le_refl _)]
    simp
  · rw [List.getElem?_set_ne (Ne.symm hk)]
    by_cases hkl : k < sigmap.length
    · rw [mkBufs_get _ _ _ _ hkl, mkBufs_get _ _ _ _ hkl, Function.update_noteq hk]
    · have h1 : (mkBufs sigmap cap D).length ≤ k := by
        unfold mkBufs; simpa using not_lt.mp hkl
      have h2 : (mkBufs sigmap cap (Function.update D n (D n ++ [x]))).length ≤ k := by
        unfold mkBufs; simpa using not_lt.mp hkl
      rw [List.getElem?_eq_none h1, List.getElem?_eq_none h2]

theorem slotsFor_neg (m v : List Int) (n k i : Nat) (h : m.getD i 0 < 0) :
    slotsFor m v n (k + 1) i = slotsFor m v n k (i + 1) := by
  have : ¬ m.getD i 0 = (n : Int) := by omega
  simp only [slotsFor, this, if_false, List.nil_append]

theorem scatter_mkBufs (m v : List Int) (sigmap : List Int) (cap : Nat → Nat) (count : Nat) :
    ∀ (i : Nat) (D : Nat → List Int),
      (∀ j, i ≤ j → j < i + count → m.getD j 0 ≥ 0 →
        ∃ n, n < sigmap.length ∧ m.getD j 0 = (n : Int) ∧ sigmap.getD n 0 ≥ 0) →
      (∀ n, n < sigmap.length → sigmap.getD n 0 ≥ 0 →
        (D n).length + (slotsFor m v n count i).length ≤ cap n) →
      scatter m v count i (mkBufs sigmap cap D)
        = some (mkBufs sigmap cap (fun n => D n ++ slotsFor m v n count i)) := by
  induction count with
  | zero =>
    intro i D _ _
    simp only [scatter, slotsFor, List.append_nil]
  | succ k ih =>
    intro i D hv hcap
    by_cases hm : m.getD i 0 ≥ 0
    · obtain ⟨n0, hn0, hmn, hsel⟩ := hv i (le_refl _) (by omega) hm
      have hroom : (D n0).length < cap n0 := by
        have := hcap n0 hn0 hsel
        simp only [slotsFor, hmn, if_true, List.length_append, List.length_singleton] at this
        omega
      have htn : (m.getD i 0).toNat = n0 := by rw [hmn]; simp
      simp only [scatter, hm, if_true, htn, storeSample_mkBufs _ _ _ _ _ hn0 hsel hroom]
      rw [ih (i + 1) (Function.update D n0 (D n0 ++ [v.getD i 0]))]
      · congr 1
        apply mkBufs_congr
        intro n _ _
        by_cases hnn : n = n0
        · subst hnn
          simp only [Function.update_same, slotsFor, hmn, if_true, List.append_assoc]
        · have hne : ¬ m.getD i 0 = (n : Int) := by
            rw [hmn]; intro e; exact hnn (by exact_mod_cast e.symm)
          simp only [Function.update_noteq hnn, slotsFor, hne, if_false, List.nil_append]
      · intro j h1 h2 h3
        exact hv j (by omega) (by omega) h3
      · intro n hn hs
        have := hcap n hn hs
        by_cases hnn : n = n0
        · subst hnn
          simp only [Function.update_same, List.length_append, List.length_singleton]
          simp only [slotsFor, hmn, if_true, List.length_append, List.length_singleton] at this
          omega
        · have hne : ¬ m.getD i 0 = (n : Int) := by
            rw [hmn]; intro e; exact hnn (by exact_mod_cast e.symm)
          simp only [Function.update_noteq hnn]
          simp only [slotsFor, hne, if_false, List.nil_append] at this
          exact this
    · have hneg : m.getD i 0 < 0 := not_le.mp hm
      simp only [scatter, hm, if_false]
      rw [ih (i + 1) D]
      · congr 1
        apply mkBufs_congr
        intro n _ _
        rw [slotsFor_neg _ _ _ _ _ hneg]
      · intro j h1 h2 h3
        exact hv j (by omega) (by omega) h3
      · intro n hn hs
        have := hcap n hn hs
        rw [slotsFor_neg _ _ _ _ _ hneg] at this
        exact this

theorem fillBuffers_mkBufs (m sigmap : List Int) (cap c : Nat → Nat) (imin count : Nat)
    (hv : ∀ j, imin ≤ j → j < imin + count → m.getD j 0 ≥ 0 →
      ∃ n, n < sigmap.length ∧ m.getD j 0 = (n : Int) ∧ sigmap.getD n 0 ≥ 0)
    (hc : ∀ (v : List Int) n, n < sigmap.length → sigmap.getD n 0 ≥ 0 →
      (slotsFor m v n count imin).length = c n) (k : Nat) :
    ∀ (src : List (List Int)) (D : Nat → List Int),
      (∀ n, n < sigmap.length → sigmap.getD n 0 ≥ 0 →
        (D n).length + min k src.length * c n ≤ cap n) →
      fillBuffers m imin count k src (mkBufs sigmap cap D)
        = some (mkBufs sigmap cap (fun n =>
            D n ++ (src.take k).flatMap (fun v => slotsFor m v n count imin)),
          min k src.length) := by
  induction k with
  | zero =>
    intro src D _
    simp only [fillBuffers, List.take_zero, List.flatMap_nil, List.append_nil, Nat.zero_min]
  | succ k ih =>
    intro src D hcap
    cases src with
    | nil =>
      simp only [fillBuffers, List.take_nil, List.flatMap_nil, List.append_nil, List.length_nil,
        Nat.min_zero]
    | cons v rest =>
      have hmin : min (k + 1) (v :: rest).length = min k rest.length + 1 := by
        rw [List.length_cons, Nat.succ_min_succ]
      have hcap1 : ∀ n, n < sigmap.length → sigmap.getD n 0 ≥ 0 →
          (D n).length + (slotsFor m v n count imin).length ≤ cap n := by
        intro n hn hs
        have h1 := hcap n hn hs
        rw [hmin, Nat.succ_mul] at h1
        rw [hc v n hn hs]
        omega
      have hcap2 : ∀ n, n < sigmap.length → sigmap.getD n 0 ≥ 0 →
          (D n ++ slotsFor m v n count imin).length + min k rest.length * c n ≤ cap n := by
        intro n hn hs
        have h1 := hcap n hn hs
        rw [hmin, Nat.succ_mul] at h1
        rw [List.length_append, hc v n hn hs]
        omega
      simp only [fillBuffers, scatter_mkBufs m v sigmap cap count imin D hv hcap1]
      rw [ih rest _ hcap2, hmin]
      simp only [Option.map_some', List.take_succ_cons, List.flatMap_cons, List.append_assoc]

theorem allocBuffers_get (frames : Int) (spf : List Nat) :
    ∀ (sigmap : List Int) (n : Nat), sigmap.length = spf.length → n < sigmap.length →
      (allocBuffers frames spf sigmap)[n]? = some (if sigmap.getD n 0 ≥ 0 then
        some ⟨List.replicate (frames * ((spf.getD n 0 : Nat) : Int)).toNat 0, 0⟩ else none) := by
  induction spf with
  | nil =>
    intro sigmap n hl hn
    rw [hl] at hn
    exact absurd hn (Nat.not_lt_zero _)
  | cons x xs ih =>
    intro sigmap n hl hn
    cases sigmap with
    | nil => exact absurd hn (Nat.not_lt_zero _)
    | cons sm sms =>
      cases n with
      | zero => simp [allocBuffers]
      | succ n =>
        have hl2 : sms.length = xs.length := by simpa using hl
        have hn2 : n < sms.length := by simpa using hn
        have := ih sms n hl2 hn2
        simpa [allocBuffers] using this

theorem allocBuffers_length (frames : Int) (spf : List Nat) :
    ∀ (sigmap : List Int), sigmap.length = spf.length →
      (allocBuffers frames spf sigmap).length = sigmap.length := by
  induction spf with
  | nil =>
    intro sigmap hl
    cases sigmap with
    | nil => rfl
    | cons _ _ => simp at hl
  | cons x xs ih =>
    intro sigmap hl
    cases sigmap with
    | nil => simp at hl
    | cons sm sms =>
      have hl2 : sms.length = xs.length := by simpa using hl
      simp [allocBuffers, ih sms hl2]

theorem allocBuffers_eq_mkBufs (frames : Int) (spf : List Nat) (sigmap : List Int)
    (hl : sigmap.length = spf.length) :
    allocBuffers frames spf sigmap
      = mkBufs sigmap (fun n => (frames * ((spf.getD n 0 : Nat) : Int)).toNat) (fun _ => []) := by
  apply List.ext_getElem?
  intro n
  by_cases hn : n < sigmap.length
  · rw [allocBuffers_get frames spf sigmap n hl hn, mkBufs_get _ _ _ _ hn]
    simp
  · have h1 : (allocBuffers frames spf sigmap).length ≤ n := by
      rw [allocBuffers_length frames spf sigmap hl]; exact not_lt.mp hn
    have h2 : (mkBufs sigmap (fun n => (frames * ((spf.getD n 0 : Nat) : Int)).toNat)
        (fun _ => [])).length ≤ n := by
      unfold mkBufs; simpa using not_lt.mp hn
    rw [List.getElem?_eq_none h1, List.getElem?_eq_none h2]

theorem frameMap_length (spf : List Nat) :
    ∀ (sigmap : List Int), sigmap.length = spf.length →
      (frameMap spf sigmap).length = spf.sum := by
  induction spf with
  | nil => intro sigmap _; cases sigmap <;> rfl
  | cons x xs ih =>
    intro sigmap hl
    cases sigmap with
    | nil => simp at hl
    | cons sm sms =>
      have hl2 : sms.length = xs.length := by simpa using hl
      simp [frameMap, ih sms hl2]

theorem slotOffset_cons_succ (x : Nat) (xs : List Nat) (c : Nat) :
    slotOffset (x :: xs) (c + 1) = x + slotOffset xs c := by
  simp [slotOffset]

theorem frameMap_block (spf : List Nat) :
    ∀ (sigmap : List Int) (c t : Nat), sigmap.length = spf.length → c < spf.length →
      t < spf.getD c 0 →
      (frameMap spf sigmap).getD (slotOffset spf c + t) 0 = sigmap.getD c 0 := by
  induction spf with
  | nil => intro sigmap c t _ hc; exact absurd hc (Nat.not_lt_zero _)
  | cons x xs ih =>
    intro sigmap c t hl hc ht
    cases sigmap with
    | nil => simp at hl
    | cons sm sms =>
      have hl2 : sms.length = xs.length := by simpa using hl
      cases c with
      | zero =>
        have ht2 : t < x := by simpa using ht
        have hlt : t < (List.replicate x sm).length := by simpa using ht2
        simp only [frameMap, slotOffset, List.take_zero, List.sum_nil, Nat.zero_add,
          List.getD_eq_getElem?_getD, List.getElem?_append_left hlt]
        simp [List.getElem?_replicate, ht2]
      | succ c =>
        have hc2 : c < xs.length := by simpa using hc
        have ht2 : t < xs.getD c 0 := by simpa using ht
        have hge : (List.replicate x sm).length ≤ x + slotOffset xs c + t := by
          simp; omega
        have hsub : x + slotOffset xs c + t - (List.replicate x sm).length
            = slotOffset xs c + t := by simp; omega
        have := ih sms c t hl2 hc2 ht2
        simp only [List.getD_eq_getElem?_getD] at this
        simp only [frameMap, slotOffset_cons_succ, List.getD_eq_getElem?_getD,
          List.getElem?_append_right hge, hsub, this]
        simp

theorem frameMap_cover (spf : List Nat) :
    ∀ (j : Nat), j < spf.sum →
      ∃ c t, c < spf.length ∧ t < spf.getD c 0 ∧ j = slotOffset spf c + t := by
  induction spf with
  | nil => intro j hj; exact absurd hj (Nat.not_lt_zero _)
  | cons x xs ih =>
    intro j hj
    by_cases hjx : j < x
    · exact ⟨0, j, by simp, by simpa using hjx, by simp [slotOffset]⟩
    · have hj2 : j - x < xs.sum := by
        simp only [List.sum_cons] at hj; omega
      obtain ⟨c, t, hc, ht, he⟩ := ih (j - x) hj2
      refine ⟨c + 1, t, by simpa using hc, by simpa using ht, ?_⟩
      rw [slotOffset_cons_succ]; omega

theorem slotOffset_add_le (spf : List Nat) :
    ∀ (n : Nat), n < spf.length → slotOffset spf n + spf.getD n 0 ≤ spf.sum := by
  induction spf with
  | nil => intro n hn; exact absurd hn (Nat.not_lt_zero _)
  | cons x xs ih =>
    intro n hn
    cases n with
    | zero => simp [slotOffset]
    | succ n =>
      have hn2 : n < xs.length := by simpa using hn
      have := ih n hn2
      rw [slotOffset_cons_succ]
      simp only [List.getD_cons_succ, List.sum_cons]
      omega

theorem slotsFor_add (m v : List Int) (n a b : Nat) :
    ∀ (i : Nat), slotsFor m v n (a + b) i = slotsFor m v n a i ++ slotsFor m v n b (i + a) := by
  induction a with
  | zero => intro i; simp [slotsFor]
  | succ a ih =>
    intro i
    have e : a + 1 + b = (a + b) + 1 := by omega
    have e2 : i + (a + 1) = i + 1 + a := by omega
    rw [e, slotsFor, slotsFor, ih (i + 1), e2, List.append_assoc]

theorem slotsFor_none (m v : List Int) (n count : Nat) :
    ∀ (i : Nat), (∀ j, i ≤ j → j < i + count → m.getD j 0 ≠ (n : Int)) →
      slotsFor m v n count i = [] := by
  induction count with
  | zero => intro i _; rfl
  | succ k ih =>
    intro i h
    have h0 := h i (le_refl _) (by omega)
    rw [slotsFor, if_neg h0, List.nil_append]
    exact ih (i + 1) (fun j h1 h2 => h j (by omega) (by omega))

theorem slots_succ (v : List Int) (i k : Nat) :
    slots v i (k + 1) = v.getD i 0 :: slots v (i + 1) k := by
  unfold slots
  rw [List.range_succ_eq_map, List.map_cons, List.map_map]
  congr 1
  apply List.map_congr_left
  intro j _
  simp only [Function.comp, Nat.succ_eq_add_one]
  congr 1
  omega

theorem slotsFor_all (m v : List Int) (n count : Nat) :
    ∀ (i : Nat), (∀ j, i ≤ j → j < i + count → m.getD j 0 = (n : Int)) →
      slotsFor m v n count i = slots v i count := by
  induction count with
  | zero => intro i _; rfl
  | succ k ih =>
    intro i h
    have h0 := h i (le_refl _) (by omega)
    rw [slotsFor, if_pos h0, slots_succ, ih (i + 1) (fun j h1 h2 => h j (by omega) (by omega))]
    rfl

theorem scanImax_spec (m : List Int) (k : Nat) :
    scanImax m k ≤ k ∧ ∀ j, scanImax m k < j → j ≤ k → m.getD j 0 < 0 := by
  induction k with
  | zero => exact ⟨le_refl _, fun j h1 h2 => absurd h1 (by simp [scanImax]; omega)⟩
  | succ k ih =>
    by_cases h : m.getD (k + 1) 0 < 0
    · simp only [scanImax, h, if_true]
      refine ⟨by omega, ?_⟩
      intro j h1 h2
      by_cases hj : j = k + 1
      · rw [hj]; exact h
      · exact ih.2 j h1 (by omega)
    · simp only [scanImax, h, if_false]
      exact ⟨le_refl _, fun j h1 h2 => absurd h1 (by omega)⟩

theorem scanImin_spec (m : List Int) (k : Nat) :
    ∀ (i : Nat), i ≤ scanImin m k i ∧ scanImin m k i ≤ i + k
      ∧ ∀ j, i ≤ j → j < scanImin m k i → m.getD j 0 < 0 := by
  induction k with
  | zero =>
    intro i
    exact ⟨le_refl _, le_refl _, fun j h1 h2 => absurd h2 (by simp [scanImin]; omega)⟩
  | succ k ih =>
    intro i
    by_cases h : m.getD i 0 < 0
    · simp only [scanImin, h, if_true]
      obtain ⟨h1, h2, h3⟩ := ih (i + 1)
      refine ⟨by omega, by omega, ?_⟩
      intro j hj1 hj2
      by_cases hj : j = i
      · rw [hj]; exact h
      · exact h3 j (by omega) hj2
    · simp only [scanImin, h, if_false]
      exact ⟨le_refl _, by omega, fun j h1 h2 => absurd h2 (by omega)⟩

/-- The scanned sub-range `[imin, imax]` lies inside the frame and every slot
of the frame outside it is unselected. -/
theorem subrange_spec (m : List Int) (framelen : Nat) :
    scanImin m (imaxOf m framelen).toNat 0
        + (imaxOf m framelen - (scanImin m (imaxOf m framelen).toNat 0 : Int) + 1).toNat
      ≤ framelen
    ∧ (∀ j, j < scanImin m (imaxOf m framelen).toNat 0 → m.getD j 0 < 0)
    ∧ (∀ j, scanImin m (imaxOf m framelen).toNat 0
        + (imaxOf m framelen - (scanImin m (imaxOf m framelen).toNat 0 : Int) + 1).toNat ≤ j →
        j < framelen → m.getD j 0 < 0) := by
  by_cases hf : framelen = 0
  · subst hf
    have h0 : imaxOf m 0 = -1 := by simp [imaxOf]
    rw [h0]
    have h1 : scanImin m (-1 : Int).toNat 0 = 0 := by simp [scanImin]
    rw [h1]
    exact ⟨by simp, fun j hj => absurd hj (Nat.not_lt_zero _),
      fun j _ hj => absurd hj (Nat.not_lt_zero _)⟩
  · have h0 : imaxOf m framelen = (scanImax m (framelen - 1) : Int) := by simp [imaxOf, hf]
    rw [h0]
    simp only [Int.toNat_ofNat]
    obtain ⟨ha, hb⟩ := scanImax_spec m (framelen - 1)
    obtain ⟨hc, hd, he⟩ := scanImin_spec m (scanImax m (framelen - 1)) 0
    refine ⟨by omega, fun j hj => he j (Nat.zero_le _) hj, ?_⟩
    intro j h1 h2
    exact hb j (by omega) (by omega)

theorem length_slots (v : List Int) (off k : Nat) : (slots v off k).length = k := by
  simp [slots]

theorem length_demux (spf : List Nat) (n : Nat) (frames : List (List Int)) :
    (demux spf n frames).length = frames.length * spf.getD n 0 := by
  induction frames with
  | nil => simp [demux]
  | cons v rest ih =>
    unfold demux at ih ⊢
    rw [List.flatMap_cons, List.length_append, ih, length_slots, List.length_cons,
      Nat.succ_mul, Nat.add_comm]

/-- Every selected slot of the frame map belongs to a selected signal. -/
theorem frameMap_valid (spf : List Nat) (sigmap : List Int)
    (hl : sigmap.length = spf.length)
    (hsel : ∀ n, n < spf.length → sigmap.getD n 0 = -1 ∨ sigmap.getD n 0 = (n : Int))
    (j : Nat) (hj : j < spf.sum) (hm : (frameMap spf sigmap).getD j 0 ≥ 0) :
    ∃ n t, n < sigmap.length ∧ t < spf.getD n 0 ∧ j = slotOffset spf n + t
      ∧ (frameMap spf sigmap).getD j 0 = (n : Int) ∧ sigmap.getD n 0 ≥ 0 := by
  obtain ⟨c, t, hc, ht, he⟩ := frameMap_cover spf j hj
  have hb := frameMap_block spf sigmap c t hl hc ht
  rw [← he] at hb
  rcases hsel c hc with h1 | h1
  · rw [hb, h1] at hm; exact absurd hm (by decide)
  · exact ⟨c, t, by omega, ht, he, by rw [hb, h1], by rw [h1]; omega⟩

/-- The slots that one pass over the sub-range `[imin, imax]` stores for a
selected signal are exactly the slots `[off_n, off_n + spf_n)` of the frame. -/
theorem slotsFor_selected (spf : List Nat) (sigmap v : List Int)
    (hl : sigmap.length = spf.length)
    (hsel : ∀ n, n < spf.length → sigmap.getD n 0 = -1 ∨ sigmap.getD n 0 = (n : Int))
    (n : Nat) (hn : n < sigmap.length) (hs : sigmap.getD n 0 ≥ 0) :
    slotsFor (frameMap spf sigmap) v n
        (imaxOf (frameMap spf sigmap) spf.sum
          - (scanImin (frameMap spf sigmap) (imaxOf (frameMap spf sigmap) spf.sum).toNat 0 : Int)
          + 1).toNat
        (scanImin (frameMap spf sigmap) (imaxOf (frameMap spf sigmap) spf.sum).toNat 0)
      = slots v (slotOffset spf n) (spf.getD n 0) := by
  obtain ⟨h1, h2, h3⟩ := subrange_spec (frameMap spf sigmap) spf.sum
  generalize scanImin (frameMap spf sigmap) (imaxOf (frameMap spf sigmap) spf.sum).toNat 0
    = imin at h1 h2 h3 ⊢
  generalize (imaxOf (frameMap spf sigmap) spf.sum - (imin : Int) + 1).toNat
    = count at h1 h3 ⊢
  have hn2 : n < spf.length := by omega
  have hsn : sigmap.getD n 0 = (n : Int) := by
    rcases hsel n hn2 with h | h
    · rw [h] at hs; exact absurd hs (by decide)
    · exact h
  have hneg : ∀ j, (frameMap spf sigmap).getD j 0 < 0 →
      (frameMap spf sigmap).getD j 0 ≠ (n : Int) := by
    intro j hj; omega
  -- the whole frame gives the same values as the sub-range
  have hA : slotsFor (frameMap spf sigmap) v n spf.sum 0
      = slotsFor (frameMap spf sigmap) v n count imin := by
    have e : spf.sum = imin + (count + (spf.sum - imin - count)) := by omega
    rw [e, slotsFor_add, slotsFor_add, Nat.zero_add,
      slotsFor_none _ _ _ imin 0 (fun j _ hj => hneg j (h2 j (by omega))),
      slotsFor_none _ _ _ (spf.sum - imin - count) (imin + count)
        (fun j hj1 hj2 => hneg j (h3 j hj1 (by omega)))]
    simp
  -- and the whole frame gives the block of signal `n`
  have hle := slotOffset_add_le spf n hn2
  have hout : ∀ j, j < spf.sum → (j < slotOffset spf n ∨ slotOffset spf n + spf.getD n 0 ≤ j) →
      (frameMap spf sigmap).getD j 0 ≠ (n : Int) := by
    intro j hj hjo heq
    have hge : (frameMap spf sigmap).getD j 0 ≥ 0 := by rw [heq]; omega
    obtain ⟨c, t, _, ht, he, hmc, _⟩ := frameMap_valid spf sigmap hl hsel j hj hge
    have hcn : c = n := by
      rw [hmc] at heq; exact_mod_cast heq
    subst hcn
    omega
  have hB : slotsFor (frameMap spf sigmap) v n spf.sum 0
      = slots v (slotOffset spf n) (spf.getD n 0) := by
    have e : spf.sum = slotOffset spf n
        + (spf.getD n 0 + (spf.sum - slotOffset spf n - spf.getD n 0)) := by omega
    rw [e, slotsFor_add, slotsFor_add, Nat.zero_add,
      slotsFor_none _ _ _ (slotOffset spf n) 0
        (fun j _ hj => hout j (by omega) (Or.inl (by omega))),
      slotsFor_none _ _ _ (spf.sum - slotOffset spf n - spf.getD n 0)
        (slotOffset spf n + spf.getD n 0)
        (fun j hj1 hj2 => hout j (by omega) (Or.inr hj1)),
      slotsFor_all _ _ _ (spf.getD n 0) (slotOffset spf n)]
    · simp
    · intro j hj1 hj2
      have := frameMap_block spf sigmap n (j - slotOffset spf n) hl hn2 (by omega)
      have e2 : slotOffset spf n + (j - slotOffset spf n) = j := by omega
      rw [e2] at this
      rw [this, hsn]
  rw [← hA, hB]

/-- Lines 555-579 on any well-formed selection and any window `t0 < tf`: the
buffers never overflow, and after the loop each selected signal holds the
samples of its slots in the frames read, followed by the cells still zero. -/
theorem collectSamples_eq (spf : List Nat) (sigmap : List Int) (t0 tf : Int)
    (src : List (List Int)) (hl : sigmap.length = spf.length)
    (hsel : ∀ n, n < spf.length → sigmap.getD n 0 = -1 ∨ sigmap.getD n 0 = (n : Int))
    (hwin : t0 < tf) :
    collectSamples spf sigmap t0 tf src
      = some (mkBufs sigmap (fun n => (tf - t0).toNat * spf.getD n 0)
          (fun n => demux spf n (src.take (tf - t0).toNat)),
        min (tf - t0).toNat src.length) := by
  have hcapfun : (fun n => ((tf - t0) * ((spf.getD n 0 : Nat) : Int)).toNat)
      = (fun n => (tf - t0).toNat * spf.getD n 0) := by
    funext n
    have e : tf - t0 = (((tf - t0).toNat : Nat) : Int) := by
      rw [Int.toNat_of_nonneg]; omega
    rw [e]
    simp only [Int.toNat_ofNat]
    exact_mod_cast Int.toNat_ofNat ((tf - t0).toNat * spf.getD n 0)
  unfold collectSamples
  simp only
  rw [allocBuffers_eq_mkBufs _ _ _ hl, hcapfun]
  obtain ⟨h1, -, -⟩ := subrange_spec (frameMap spf sigmap) spf.sum
  rw [fillBuffers_mkBufs (frameMap spf sigmap) sigmap _ (fun n => spf.getD n 0)]
  · congr 2
    apply mkBufs_congr
    intro n hn hs
    simp only [List.nil_append, demux]
    congr 1
    funext v
    exact slotsFor_selected spf sigmap v hl hsel n hn hs
  · intro j hj1 hj2 hj3
    obtain ⟨n, t, hn, _, _, hmn, hs⟩ :=
      frameMap_valid spf sigmap hl hsel j (by omega) hj3
    exact ⟨n, hn, hmn, hs⟩
  · intro v n hn hs
    rw [slotsFor_selected spf sigmap v hl hsel n hn hs, length_slots]
  · intro n _ _
    simp only [List.length_nil, Nat.zero_add]
    exact Nat.mul_le_mul_right _ (Nat.min_le_left _ _)

theorem emitSignals_collected (E : Nat → List Int) :
    ∀ (sms : List Int) (bs : List (Option SampleBuf)) (n0 : Nat),
      bs.length = sms.length →
      (∀ i, i < sms.length → sms.getD i 0 ≥ 0 →
        E (n0 + i) ≠ [] ∧ ∃ pad, bs[i]? = some (some ⟨E (n0 + i) ++ pad, (E (n0 + i)).length⟩)) →
      emitSignals sms bs n0 = some ((List.range sms.length).filterMap (fun i =>
        if sms.getD i 0 ≥ 0 then some ⟨n0 + i, intDeltas 0 (E (n0 + i))⟩ else none)) := by
  intro sms
  induction sms with
  | nil => intro bs n0 _ _; cases bs <;> rfl
  | cons sm sms ih =>
    intro bs n0 hlen h
    cases bs with
    | nil => simp at hlen
    | cons b bs =>
      have hlen2 : bs.length = sms.length := by simpa using hlen
      have hshift : ∀ i, i < sms.length → sms.getD i 0 ≥ 0 →
          E (n0 + 1 + i) ≠ [] ∧
            ∃ pad, bs[i]? = some (some ⟨E (n0 + 1 + i) ++ pad, (E (n0 + 1 + i)).length⟩) := by
        intro i hi hs
        have := h (i + 1) (by simpa using hi) (by simpa using hs)
        have e : n0 + (i + 1) = n0 + 1 + i := by omega
        rw [e] at this
        simpa using this
      have hrec := ih bs (n0 + 1) hlen2 hshift
      have hfun : (fun i => if (sm :: sms).getD (i + 1) 0 ≥ 0 then
            some (SignalEntry.mk (n0 + (i + 1)) (intDeltas 0 (E (n0 + (i + 1))))) else none)
          = (fun i => if sms.getD i 0 ≥ 0 then
            some (SignalEntry.mk (n0 + 1 + i) (intDeltas 0 (E (n0 + 1 + i)))) else none) := by
        funext i
        have e : n0 + (i + 1) = n0 + 1 + i := by omega
        rw [e]; rfl
      rw [List.length_cons, List.range_succ_eq_map, List.filterMap_cons, List.filterMap_map]
      by_cases hs : sm ≥ 0
      · obtain ⟨hne, pad, hb⟩ := h 0 (by simp) (by simpa using hs)
        have hb2 : b = some ⟨E n0 ++ pad, (E n0).length⟩ := by simpa using hb
        have hfun2 : ((fun i => if (sm :: sms).getD i 0 ≥ 0 then
              some (SignalEntry.mk (n0 + i) (intDeltas 0 (E (n0 + i)))) else none) ∘ Nat.succ)
            = (fun i => if sms.getD i 0 ≥ 0 then
              some (SignalEntry.mk (n0 + 1 + i) (intDeltas 0 (E (n0 + 1 + i)))) else none) :=
          hfun
        simp only [emitSignals, hs, if_true, hb2, emitSamp_collected (E n0) pad hne, hrec,
          Option.map_some', List.getD_cons_zero, Nat.add_zero, hfun2]
      · have hfun2 : ((fun i => if (sm :: sms).getD i 0 ≥ 0 then
              some (SignalEntry.mk (n0 + i) (intDeltas 0 (E (n0 + i)))) else none) ∘ Nat.succ)
            = (fun i => if sms.getD i 0 ≥ 0 then
              some (SignalEntry.mk (n0 + 1 + i) (intDeltas 0 (E (n0 + 1 + i)))) else none) :=
          hfun
        simp only [emitSignals, hs, if_false, hrec, List.getD_cons_zero, hfun2]

/-- The function `fetchsignals` whenever at least one frame is read: it
writes, for each selected signal in signal order, the delta encoding of the
samples collected from the frames read. -/
theorem fetchsignals_eq (spf : List Nat) (sigmap : List Int) (nosig t0 tf : Int)
    (src : List (List Int)) (hspf : ∀ x ∈ spf, 1 ≤ x) (hl : sigmap.length = spf.length)
    (hsel : ∀ n, n < spf.length → sigmap.getD n 0 = -1 ∨ sigmap.getD n 0 = (n : Int))
    (hnosig : 1 ≤ nosig) (hwin : t0 < tf) (hsrc : src ≠ []) :
    fetchsignals spf sigmap nosig t0 tf src
      = some ⟨true, expectedEntries sigmap (fun n => demux spf n (src.take (tf - t0).toNat)),
          min (tf - t0).toNat src.length⟩ := by
  have hguard : ¬ (nosig < 1 ∨ t0 ≥ tf) := by omega
  have hpos : 0 < (src.take (tf - t0).toNat).length := by
    rw [List.length_take]
    have h1 : 0 < src.length := List.length_pos.mpr hsrc
    have h2 : 0 < (tf - t0).toNat := by omega
    exact Nat.lt_min.mpr ⟨h2, h1⟩
  unfold fetchsignals
  simp only [hguard, if_false, collectSamples_eq spf sigmap t0 tf src hl hsel hwin]
  rw [emitSignals_collected (fun n => demux spf n (src.take (tf - t0).toNat)) sigmap _ 0]
  · simp only [Nat.zero_add, expectedEntries]
  · simp [mkBufs]
  · intro i hi hs
    rw [Nat.zero_add]
    constructor
    · intro hnil
      have hlen := length_demux spf i (src.take (tf - t0).toNat)
      rw [hnil, List.length_nil] at hlen
      have hi2 : i < spf.length := by omega
      have h1 : 1 ≤ spf.getD i 0 := by
        have hmem : spf.getD i 0 ∈ spf := by
          rw [List.getD_eq_getElem?_getD, List.getElem?_eq_getElem hi2]
          exact List.getElem_mem hi2
        exact hspf _ hmem
      have : 0 < (src.take (tf - t0).toNat).length * spf.getD i 0 := Nat.mul_pos hpos h1
      omega
    · exact ⟨_, by rw [mkBufs_get _ _ _ _ hi, if_pos hs]⟩

/-- C2: for a record whose signals all have `spf >= 1`, a well-formed
selection `sigmap` (entry `n` is `n` or `-1`, `nosig >= 1`) and a window
`t0 < tf` of which `getframe` yields every frame, the loop of lines 575-579
never writes outside a buffer and leaves in the buffer of each selected signal
`n` exactly the slots `[off_n, off_n + spf_n)` of the frames in time order,
`(tf - t0) * spf_n` samples, the allocated size; an unselected signal has no
buffer and receives nothing; every selected slot of the frame map lies in
`[imin, imax]`; and `fetchsignals` writes the delta encoding of these samples
for the selected signals. -/
theorem fetchsignals_demux (spf : List Nat) (sigmap : List Int) (nosig t0 tf : Int)
    (src : List (List Int)) (hspf : ∀ x ∈ spf, 1 ≤ x) (hl : sigmap.length = spf.length)
    (hsel : ∀ n, n < spf.length → sigmap.getD n 0 = -1 ∨ sigmap.getD n 0 = (n : Int))
    (hnosig : 1 ≤ nosig) (hwin : t0 < tf) (hfull : (tf - t0).toNat ≤ src.length) :
    ∃ bufs, collectSamples spf sigmap t0 tf src = some (bufs, (tf - t0).toNat)
      ∧ (∀ n, n < spf.length → sigmap.getD n 0 ≥ 0 →
          bufs[n]? = some (some ⟨demux spf n (src.take (tf - t0).toNat),
            (tf - t0).toNat * spf.getD n 0⟩)
          ∧ (demux spf n (src.take (tf - t0).toNat)).length = (tf - t0).toNat * spf.getD n 0)
      ∧ (∀ n, n < spf.length → sigmap.getD n 0 < 0 → bufs[n]? = some none)
      ∧ (∀ i, i < spf.sum → (frameMap spf sigmap).getD i 0 ≥ 0 →
          scanImin (frameMap spf sigmap) (imaxOf (frameMap spf sigmap) spf.sum).toNat 0 ≤ i
          ∧ (i : Int) ≤ imaxOf (frameMap spf sigmap) spf.sum)
      ∧ fetchsignals spf sigmap nosig t0 tf src
          = some ⟨true,
              expectedEntries sigmap (fun n => demux spf n (src.take (tf - t0).toNat)),
              (tf - t0).toNat⟩ := by
  have hmin : min (tf - t0).toNat src.length = (tf - t0).toNat := Nat.min_eq_left hfull
  have htake : (src.take (tf - t0).toNat).length = (tf - t0).toNat := by
    rw [List.length_take, hmin]
  have hsrc : src ≠ [] := by
    intro h
    rw [h, List.length_nil] at hfull
    omega
  refine ⟨mkBufs sigmap (fun n => (tf - t0).toNat * spf.getD n 0)
    (fun n => demux spf n (src.take (tf - t0).toNat)), ?_, ?_, ?_, ?_, ?_⟩
  · rw [collectSamples_eq spf sigmap t0 tf src hl hsel hwin, hmin]
  · intro n hn hs
    have hlen := length_demux spf n (src.take (tf - t0).toNat)
    rw [htake] at hlen
    refine ⟨?_, hlen⟩
    rw [mkBufs_get _ _ _ _ (by omega), if_pos hs, hlen]
    simp
  · intro n hn hs
    rw [mkBufs_get _ _ _ _ (by omega), if_neg (by omega)]
  · intro i hi hm
    obtain ⟨h1, h2, h3⟩ := subrange_spec (frameMap spf sigmap) spf.sum
    have ha : ¬ i < scanImin (frameMap spf sigmap)
        (imaxOf (frameMap spf sigmap) spf.sum).toNat 0 := by
      intro hlt
      have := h2 i hlt
      omega
    have hb : ¬ scanImin (frameMap spf sigmap) (imaxOf (frameMap spf sigmap) spf.sum).toNat 0
        + (imaxOf (frameMap spf sigmap) spf.sum
          - (scanImin (frameMap spf sigmap)
              (imaxOf (frameMap spf sigmap) spf.sum).toNat 0 : Int) + 1).toNat ≤ i := by
      intro hle
      have := h3 i hle hi
      omega
    omega
  · rw [fetchsignals_eq spf sigmap nosig t0 tf src hspf hl hsel hnosig hwin hsrc, hmin]

/-- C2 (witness): two signals with one and two samples per frame, the second
one selected, three frames requested and read. -/
theorem fetchsignals_demux_witness :
    fetchsignals [1, 2] [-1, 1] 1 0 3 [[1, 10, 11], [2, 20, 21], [3, 30, 31]]
      = some ⟨true, [⟨1, [10, 1, 9, 1, 9, 1]⟩], 3⟩ := by
  obtain ⟨_, -, -, -, -, h⟩ := fetchsignals_demux [1, 2] [-1, 1] 1 0 3
    [[1, 10, 11], [2, 20, 21], [3, 30, 31]] (by decide) (by decide) (by decide) (by decide)
    (by decide) (by decide)
  rw [h]
  decide

/-- C10: when `getframe` fails on its first call (`F = 0`), `fetchsignals`
still prints one `samp` value, the zero of the untouched buffer: the emitted
sequence has one element instead of none.  With one frame read out of two the
emitted sequence is the delta encoding of the samples collected. -/
theorem fetchsignals_no_frame :
    fetchsignals [1] [0] 1 0 1 [] = some ⟨true, [⟨0, [0]⟩], 0⟩
    ∧ fetchsignals [1, 2] [-1, 1] 1 0 3 [] = some ⟨true, [⟨1, [0]⟩], 0⟩
    ∧ fetchsignals [1, 2] [-1, 1] 1 0 2 [[1, 10, 11]] = some ⟨true, [⟨1, [10, 1]⟩], 1⟩ := by
  decide

/-- With a non-positive upper bound the loop of line 508 prints every
annotation of the stream. -/
theorem readAnnotations_unbounded (taf : Int) (h : taf ≤ 0) (stream : List Annotation) :
    readAnnotations taf stream = stream := by
  induction stream with
  | nil => rfl
  | cons a rest ih => simp only [readAnnotations, h, true_or, if_true, ih]

/-- With a positive bound equal to the time the stream was positioned at, the
loop of line 508 prints nothing. -/
theorem readAnnotations_after_seek (ta : Int) (stream : List Annotation) :
    readAnnotations ta (iannsettime ta stream) = [] ∨ ta ≤ 0 := by
  by_cases h : ta ≤ 0
  · exact Or.inr h
  · left
    induction stream with
    | nil => rfl
    | cons a rest ih =>
      by_cases ha : a.time < ta
      · have : iannsettime ta (a :: rest) = iannsettime ta rest := by
          simp [iannsettime, List.dropWhile, ha]
        rw [this]; exact ih
      · have : iannsettime ta (a :: rest) = a :: rest := by
          simp [iannsettime, List.dropWhile, ha]
        rw [this]
        simp only [readAnnotations, h, ha, or_self, if_false]

/-- C9: for the start time 5 (frames, at `ffreq = tfreq = 1`) and the duration
"0", `prep_times` gives `tf = t0 = 5`; `fetchsignals` retrieves no sample; the
annotator stream holds annotations at times 3, 7 and 9 and yields those at 7
and 9 once positioned at 5, yet `fetchannotations` prints none of them, the
upper bound being `taf = 5 > 0`.  With the start time 0 the same request
prints the whole stream. -/
theorem fetchannotations_zero_duration :
    prep_times 1 5 (some ['0']) = ⟨5, 0, 5⟩
    ∧ fetchsignals [1] [0] 1 5 5 [[1], [2]] = some ⟨false, [], 0⟩
    ∧ iannsettime 5 [⟨3, 1, 0, 0, 0⟩, ⟨7, 1, 0, 0, 0⟩, ⟨9, 28, 0, 0, 0⟩]
        = [⟨7, 1, 0, 0, 0⟩, ⟨9, 28, 0, 0, 0⟩]
    ∧ fetchannotations
        [(['a', 't', 'r'], some [⟨3, 1, 0, 0, 0⟩, ⟨7, 1, 0, 0, 0⟩, ⟨9, 28, 0, 0, 0⟩])] 1 1 5 5
        = (true, [(['a', 't', 'r'], [])])
    ∧ fetchannotations
        [(['a', 't', 'r'], some [⟨3, 1, 0, 0, 0⟩, ⟨7, 1, 0, 0, 0⟩, ⟨9, 28, 0, 0, 0⟩])] 1 1 0 0
        = (true, [(['a', 't', 'r'],
            [⟨3, 1, 0, 0, 0⟩, ⟨7, 1, 0, 0, 0⟩, ⟨9, 28, 0, 0, 0⟩])]) := by
  have hp : prep_times 1 5 (some ['0']) = ⟨5, 0, 5⟩ := by
    have h0 : atoi ['0'] = 0 := by decide
    simp [prep_times, h0, prep_times_dt]
  have ht : ∀ t : Int, toTicks 1 1 t = t := by
    intro t; simp [toTicks]
  refine ⟨hp, by decide, by decide, ?_, ?_⟩
  · simp only [fetchannotations, ht]
    decide
  · simp only [fetchannotations, ht]
    decide

theorem getD_set_true (marks : List Bool) (i x : Nat) (hi : i < marks.length) :
    (marks.set i true).getD x false = true ↔ x = i ∨ marks.getD x false = true := by
  by_cases hx : x = i
  · subst hx
    simp [List.getD_eq_getElem?_getD, List.getElem?_set_self hi]
  · simp [List.getD_eq_getElem?_getD, List.getElem?_set_ne (Ne.symm hx), hx]

theorem markInner_length (desc : List (List Char)) (i k : Nat) :
    ∀ (j : Nat) (marks : List Bool), (markInner desc i k j marks).length = marks.length := by
  induction k with
  | zero => intro j marks; rfl
  | succ k ih =>
    intro j marks
    rw [markInner, ih]
    split <;> simp

theorem markInner_spec (desc : List (List Char)) (i k : Nat) :
    ∀ (j : Nat) (marks : List Bool) (x : Nat), i < marks.length → j + k ≤ marks.length →
      ((markInner desc i k j marks).getD x false = true ↔
        marks.getD x false = true
        ∨ ∃ b, j ≤ b ∧ b < j + k ∧ desc.get? i = desc.get? b ∧ (x = i ∨ x = b)) := by
  induction k with
  | zero =>
    intro j marks x _ _
    simp only [markInner]
    constructor
    · intro h; exact Or.inl h
    · rintro (h | ⟨b, h1, h2, -⟩)
      · exact h
      · omega
  | succ k ih =>
    intro j marks x hi hj
    rw [markInner]
    by_cases he : desc.get? i = desc.get? j
    · have hlen : ((marks.set i true).set j true).length = marks.length := by simp
      rw [if_pos he, ih (j + 1) _ x (by rw [hlen]; exact hi) (by rw [hlen]; omega),
        getD_set_true _ j x (by simp; omega), getD_set_true _ i x hi]
      constructor
      · rintro ((h | h | h) | ⟨b, h1, h2, h3, h4⟩)
        · exact Or.inr ⟨j, le_refl _, by omega, he, Or.inr h⟩
        · exact Or.inr ⟨j, le_refl _, by omega, he, Or.inl h⟩
        · exact Or.inl h
        · exact Or.inr ⟨b, by omega, by omega, h3, h4⟩
      · rintro (h | ⟨b, h1, h2, h3, h4⟩)
        · exact Or.inl (Or.inr (Or.inr h))
        · by_cases hb : b = j
          · subst hb
            rcases h4 with h4 | h4
            · exact Or.inl (Or.inr (Or.inl h4))
            · exact Or.inl (Or.inl h4)
          · exact Or.inr ⟨b, by omega, by omega, h3, h4⟩
    · rw [if_neg he, ih (j + 1) marks x hi (by omega)]
      constructor
      · rintro (h | ⟨b, h1, h2, h3, h4⟩)
        · exact Or.inl h
        · exact Or.inr ⟨b, by omega, by omega, h3, h4⟩
      · rintro (h | ⟨b, h1, h2, h3, h4⟩)
        · exact Or.inl h
        · by_cases hb : b = j
          · subst hb; exact absurd h3 he
          · exact Or.inr ⟨b, by omega, by omega, h3, h4⟩

theorem markOuter_length (desc : List (List Char)) (k : Nat) :
    ∀ (i : Nat) (marks : List Bool), (markOuter desc k i marks).length = marks.length := by
  induction k with
  | zero => intro i marks; rfl
  | succ k ih =>
    intro i marks
    rw [markOuter, ih, markInner_length]

theorem markOuter_spec (desc : List (List Char)) (k : Nat) :
    ∀ (i : Nat) (marks : List Bool) (x : Nat), marks.length = desc.length →
      i + k ≤ desc.length →
      ((markOuter desc k i marks).getD x false = true ↔
        marks.getD x false = true
        ∨ ∃ a b, i ≤ a ∧ a < i + k ∧ a < b ∧ b < desc.length
            ∧ desc.get? a = desc.get? b ∧ (x = a ∨ x = b)) := by
  induction k with
  | zero =>
    intro i marks x _ _
    simp only [markOuter]
    constructor
    · intro h; exact Or.inl h
    · rintro (h | ⟨a, b, h1, h2, -⟩)
      · exact h
      · omega
  | succ k ih =>
    intro i marks x hlen hik
    rw [markOuter, ih (i + 1) _ x (by rw [markInner_length]; exact hlen) (by omega),
      markInner_spec desc i _ (i + 1) marks x (by omega) (by omega)]
    constructor
    · rintro ((h | ⟨b, h1, h2, h3, h4⟩) | ⟨a, b, h1, h2, h3, h4, h5, h6⟩)
      · exact Or.inl h
      · exact Or.inr ⟨i, b, le_refl _, by omega, by omega, by omega, h3, h4⟩
      · exact Or.inr ⟨a, b, by omega, by omega, h3, h4, h5, h6⟩
    · rintro (h | ⟨a, b, h1, h2, h3, h4, h5, h6⟩)
      · exact Or.inl (Or.inl h)
      · by_cases ha : a = i
        · subst ha
          exact Or.inl (Or.inr ⟨b, by omega, by omega, h5, h6⟩)
        · exact Or.inr ⟨a, b, by omega, by omega, h3, h4, h5, h6⟩

theorem shared_iff (desc : List (List Char)) (x : Nat) :
    shared desc x = true ↔ ∃ j, j < desc.length ∧ j ≠ x ∧ desc.get? j = desc.get? x := by
  simp only [shared, List.any_eq_true, List.mem_range, Bool.and_eq_true, decide_eq_true_eq]

theorem markDuplicates_getD (desc : List (List Char)) (x : Nat) :
    (markDuplicates desc).getD x false = shared desc x := by
  rw [Bool.eq_iff_iff, shared_iff]
  unfold markDuplicates
  rw [markOuter_spec desc desc.length 0 _ x (by simp) (by omega)]
  constructor
  · rintro (h | ⟨a, b, -, h2, h3, h4, h5, h6⟩)
    · exfalso
      rw [List.getD_eq_getElem?_getD, List.getElem?_replicate] at h
      split at h <;> simp at h
    · rcases h6 with h6 | h6
      · subst h6; exact ⟨b, h4, by omega, h5.symm⟩
      · subst h6; exact ⟨a, by omega, by omega, h5⟩
  · rintro ⟨j, h1, h2, h3⟩
    right
    have hx : x < desc.length := by
      by_contra hx
      have e1 : desc.get? x = none := by
        rw [List.get?_eq_getElem?]; exact List.getElem?_eq_none (not_lt.mp hx)
      have e2 : desc.get? j = some desc[j] := by
        rw [List.get?_eq_getElem?]; exact List.getElem?_eq_getElem h1
      rw [e1, e2] at h3
      exact Option.noConfusion h3
    rcases Nat.lt_or_gt_of_ne h2 with h | h
    · exact ⟨j, x, Nat.zero_le _, by omega, h, hx, h3, Or.inr rfl⟩
    · exact ⟨x, j, Nat.zero_le _, by omega, h, h1, h3.symm, Or.inl rfl⟩

theorem markDuplicates_length (desc : List (List Char)) :
    (markDuplicates desc).length = desc.length := by
  unfold markDuplicates
  rw [markOuter_length]; simp

theorem markDuplicates_eq (desc : List (List Char)) :
    markDuplicates desc = (List.range desc.length).map (shared desc) := by
  apply List.ext_getElem?
  intro x
  by_cases hx : x < desc.length
  · have h1 : x < (markDuplicates desc).length := by rw [markDuplicates_length]; exact hx
    have := markDuplicates_getD desc x
    rw [List.getD_eq_getElem?_getD, List.getElem?_eq_getElem h1] at this
    rw [List.getElem?_eq_getElem h1, List.getElem?_map, List.getElem?_range hx]
    simpa using this
  · have h1 : (markDuplicates desc).length ≤ x := by
      rw [markDuplicates_length]; exact not_lt.mp hx
    have h2 : ((List.range desc.length).map (shared desc)).length ≤ x := by
      simpa using not_lt.mp hx
    rw [List.getElem?_eq_none h1, List.getElem?_eq_none h2]

theorem digitChar_value : ∀ d, d < 10 → (Nat.digitChar d).toNat - '0'.toNat = d := by
  decide

theorem digitChar_ne_colon : ∀ d, d < 10 → Nat.digitChar d ≠ ':' := by
  decide

theorem toDigitsCore_decode (fuel : Nat) :
    ∀ (n : Nat) (ds : List Char), n < fuel →
      (Nat.toDigitsCore 10 fuel n ds).foldl (fun acc c => 10 * acc + (c.toNat - '0'.toNat)) 0
        = ds.foldl (fun acc c => 10 * acc + (c.toNat - '0'.toNat)) n := by
  induction fuel with
  | zero => intro n ds h; exact absurd h (Nat.not_lt_zero _)
  | succ fuel ih =>
    intro n ds h
    have hd := digitChar_value (n % 10) (Nat.mod_lt _ (by decide))
    by_cases h0 : n / 10 = 0
    · have hn : n % 10 = n := by omega
      simp only [Nat.toDigitsCore, h0, if_true, List.foldl_cons, hd]
      rw [hn]
      congr 1
      omega
    · have hlt : n / 10 < fuel := by omega
      simp only [Nat.toDigitsCore, h0, if_false]
      rw [ih (n / 10) _ hlt, List.foldl_cons, hd]
      congr 1
      omega

/-- Reading back the decimal text printed for `n` gives `n`. -/
theorem decimalValue_toDigits (n : Nat) : decimalValue (Nat.toDigits 10 n) = n := by
  unfold decimalValue Nat.toDigits
  rw [toDigitsCore_decode (n + 1) n [] (Nat.lt_succ_self n)]
  rfl

theorem toDigitsCore_no_colon (fuel : Nat) :
    ∀ (n : Nat) (ds : List Char), ':' ∉ ds → ':' ∉ Nat.toDigitsCore 10 fuel n ds := by
  induction fuel with
  | zero => intro n ds h; exact h
  | succ fuel ih =>
    intro n ds h
    have hc : ':' ∉ Nat.digitChar (n % 10) :: ds := by
      intro hmem
      rcases List.mem_cons.mp hmem with h1 | h1
      · exact digitChar_ne_colon (n % 10) (Nat.mod_lt _ (by decide)) h1.symm
      · exact h h1
    by_cases h0 : n / 10 = 0
    · simp only [Nat.toDigitsCore, h0, if_true]; exact hc
    · simp only [Nat.toDigitsCore, h0, if_false]; exact ih _ _ hc

theorem toDigits_no_colon (n : Nat) : ':' ∉ Nat.toDigits 10 n :=
  toDigitsCore_no_colon (n + 1) n [] (List.not_mem_nil _)

/-- Two generated names are equal only if they have the same raw name and the
same counter. -/
theorem suffixed_inj (a b : List Char) (m n : Nat) (h : suffixed a m = suffixed b n) :
    a = b ∧ m = n := by
  have key : ∀ (a b : List Char) (m n : Nat) (a1 : List Char), b = a ++ a1 →
      ':' :: (Nat.toDigits 10 m ++ ['*']) = a1 ++ ':' :: (Nat.toDigits 10 n ++ ['*']) →
      a = b ∧ m = n := by
    intro a b m n a1 hb ht
    cases a1 with
    | nil =>
      have h1 : Nat.toDigits 10 m ++ ['*'] = Nat.toDigits 10 n ++ ['*'] := by
        simpa using ht
      have h2 : Nat.toDigits 10 m = Nat.toDigits 10 n := List.append_cancel_right h1
      have h3 := congrArg decimalValue h2
      rw [decimalValue_toDigits, decimalValue_toDigits] at h3
      exact ⟨by simpa using hb.symm, h3⟩
    | cons c cs =>
      exfalso
      have h1 : Nat.toDigits 10 m ++ ['*'] = cs ++ ':' :: (Nat.toDigits 10 n ++ ['*']) := by
        simp only [List.cons_append, List.cons.injEq] at ht
        exact ht.2
      have h2 : ':' ∈ Nat.toDigits 10 m ++ ['*'] := by
        rw [h1]; simp
      rcases List.mem_append.mp h2 with h3 | h3
      · exact toDigits_no_colon m h3
      · simp at h3
  unfold suffixed at h
  rcases List.append_eq_append_iff.mp h with ⟨a1, hb, ht⟩ | ⟨b1, ha, ht⟩
  · exact key a b m n a1 hb ht
  · obtain ⟨h1, h2⟩ := key b a n m b1 ha ht
    exact ⟨h1.symm, h2.symm⟩

theorem assignNames_spec (ds : List (List Char)) :
    ∀ (ms : List Bool) (j0 : Nat), ms.length = ds.length → j0 + ds.length ≤ 1000 →
      (assignNames ds ms j0).length = ds.length
      ∧ ∀ i, i < ds.length → (assignNames ds ms j0)[i]? = some
          (if ms.getD i false = true then
            suffixed (ds.getD i []) (j0 + (ms.take i).count true)
          else ds.getD i []) := by
  induction ds with
  | nil =>
    intro ms j0 _ _
    exact ⟨by cases ms <;> rfl, fun i hi => absurd hi (Nat.not_lt_zero _)⟩
  | cons d ds ih =>
    intro ms j0 hlen hj
    cases ms with
    | nil => simp at hlen
    | cons m ms =>
      have hlen2 : ms.length = ds.length := by simpa using hlen
      have hj0 : j0 < 1000 := by simp only [List.length_cons] at hj; omega
      cases m with
      | false =>
        obtain ⟨h1, h2⟩ := ih ms j0 hlen2 (by simp only [List.length_cons] at hj; omega)
        have hc : (false = false ∧ j0 < 1000) := ⟨rfl, hj0⟩
        simp only [assignNames, hc, and_self, if_true]
        refine ⟨by simp [h1], ?_⟩
        intro i hi
        cases i with
        | zero => simp
        | succ i =>
          have := h2 i (by simpa using hi)
          simpa using this
      | true =>
        obtain ⟨h1, h2⟩ := ih ms (j0 + 1) hlen2 (by simp only [List.length_cons] at hj; omega)
        have hc : ¬ (true = false ∧ j0 < 1000) := by simp
        simp only [assignNames, hc, if_false]
        refine ⟨by simp [h1], ?_⟩
        intro i hi
        cases i with
        | zero => simp
        | succ i =>
          have := h2 i (by simpa using hi)
          have e : j0 + 1 + List.count true (List.take i ms)
              = j0 + (List.count true (List.take i ms) + 1) := by omega
          rw [e] at this
          simpa using this

theorem count_marks_take (f : Nat → Bool) (n i : Nat) (hi : i ≤ n) :
    (((List.range n).map f).take i).count true = ((List.range i).filter f).length := by
  rw [← List.map_take, List.take_range, Nat.min_eq_left hi, List.count_eq_countP,
    List.countP_map, List.countP_eq_length_filter]
  congr 1
  apply List.filter_congr
  intro x _
  simp

theorem sharedBefore_lt (desc : List (List Char)) (i j : Nat) (hij : i < j)
    (hs : shared desc i = true) : sharedBefore desc i < sharedBefore desc j := by
  unfold sharedBefore
  obtain ⟨d, rfl⟩ : ∃ d, j = i + (d + 1) := ⟨j - i - 1, by omega⟩
  rw [List.range_add, List.filter_append, List.length_append, List.range_succ_eq_map,
    List.map_cons, List.filter_cons_of_pos (by simpa using hs)]
  simp only [List.length_cons]
  omega

/-- The names assigned by `force_unique_signames` to fewer than 1000 signals. -/
theorem force_unique_signames_get (desc : List (List Char)) (hn : desc.length < 1000)
    (i : Nat) (hi : i < desc.length) :
    (force_unique_signames desc)[i]? = some
      (if shared desc i = true then suffixed (desc.getD i []) (sharedBefore desc i)
       else desc.getD i []) := by
  obtain ⟨-, h2⟩ := assignNames_spec desc (markDuplicates desc) 0
    (markDuplicates_length desc) (by omega)
  have := h2 i hi
  rw [markDuplicates_getD, Nat.zero_add] at this
  rw [markDuplicates_eq desc, count_marks_take _ _ _ (le_of_lt hi),
    ← markDuplicates_eq desc] at this
  exact this

theorem getD_mem (desc : List (List Char)) (i : Nat) (hi : i < desc.length) :
    desc.getD i [] ∈ desc := by
  rw [List.getD_eq_getElem?_getD, List.getElem?_eq_getElem hi]
  exact List.getElem_mem hi

theorem get?_eq_of_getD_eq (desc : List (List Char)) (i j : Nat) (hi : i < desc.length)
    (hj : j < desc.length) (h : desc.getD i [] = desc.getD j []) :
    desc.get? i = desc.get? j := by
  rw [List.getD_eq_getElem?_getD, List.getD_eq_getElem?_getD, List.getElem?_eq_getElem hi,
    List.getElem?_eq_getElem hj] at h
  rw [List.get?_eq_getElem?, List.get?_eq_getElem?, List.getElem?_eq_getElem hi,
    List.getElem?_eq_getElem hj]
  exact congrArg some (by simpa using h)

theorem suffixed_getLast (d : List Char) (j : Nat) : (suffixed d j).getLast? = some '*' := by
  have e : suffixed d j = (d ++ ':' :: Nat.toDigits 10 j) ++ ['*'] := by
    simp [suffixed]
  rw [e, List.getLast?_append]
  rfl

/-- C4: for fewer than 1000 signals of which no raw name is a raw name
followed by `:`, a decimal counter and `*`, `force_unique_signames` assigns
one name per signal, pairwise distinct; a signal whose raw name is shared gets
raw name + `:` + counter + `*`, the counter being the number of shared
signals before it, strictly increasing in signal order; a signal whose raw
name no other signal has keeps it. -/
theorem force_unique_signames_distinct (desc : List (List Char)) (hn : desc.length < 1000)
    (hgen : ∀ a ∈ desc, ∀ b ∈ desc, ∀ k : Nat, a ≠ b ++ ':' :: (Nat.toDigits 10 k ++ ['*'])) :
    (force_unique_signames desc).length = desc.length
    ∧ (∀ i j, i < j → j < desc.length →
        (force_unique_signames desc)[i]? ≠ (force_unique_signames desc)[j]?)
    ∧ (∀ i, i < desc.length → shared desc i = true →
        (force_unique_signames desc)[i]? = some
          (desc.getD i [] ++ ':' :: (Nat.toDigits 10 (sharedBefore desc i) ++ ['*'])))
    ∧ (∀ i j, i < j → j < desc.length → shared desc i = true → shared desc j = true →
        sharedBefore desc i < sharedBefore desc j)
    ∧ (∀ i, i < desc.length → shared desc i = false →
        (force_unique_signames desc)[i]? = desc[i]?) := by
  refine ⟨?_, ?_, ?_, ?_, ?_⟩
  · exact (assignNames_spec desc (markDuplicates desc) 0 (markDuplicates_length desc)
      (by omega)).1
  · intro i j hij hj heq
    have hi : i < desc.length := by omega
    rw [force_unique_signames_get desc hn i hi, force_unique_signames_get desc hn j hj] at heq
    have heq2 := Option.some.inj heq
    by_cases hsi : shared desc i = true
    · by_cases hsj : shared desc j = true
      · rw [if_pos hsi, if_pos hsj] at heq2
        have := (suffixed_inj _ _ _ _ heq2).2
        have hlt := sharedBefore_lt desc i j hij hsi
        omega
      · rw [if_pos hsi, if_neg hsj] at heq2
        exact hgen _ (getD_mem desc j hj) _ (getD_mem desc i hi) _ heq2.symm
    · by_cases hsj : shared desc j = true
      · rw [if_neg hsi, if_pos hsj] at heq2
        exact hgen _ (getD_mem desc i hi) _ (getD_mem desc j hj) _ heq2
      · rw [if_neg hsi, if_neg hsj] at heq2
        apply hsi
        rw [shared_iff]
        exact ⟨j, hj, by omega, (get?_eq_of_getD_eq desc i j hi hj heq2).symm⟩
  · intro i hi hs
    rw [force_unique_signames_get desc hn i hi, if_pos hs]
    rfl
  · intro i j hij _ hsi _
    exact sharedBefore_lt desc i j hij hsi
  · intro i hi hs
    rw [force_unique_signames_get desc hn i hi, if_neg (by rw [hs]; decide),
      List.getD_eq_getElem?_getD, List.getElem?_eq_getElem hi]
    rfl

/-- C4 (witness): the raw names A, A, B, C, B become A:0*, A:1*, B:2*, C, B:3*. -/
theorem force_unique_signames_distinct_witness :
    force_unique_signames [['A'], ['A'], ['B'], ['C'], ['B']]
      = [['A', ':', '0', '*'], ['A', ':', '1', '*'], ['B', ':', '2', '*'], ['C'],
          ['B', ':', '3', '*']]
    ∧ (∀ i j, i < j → j < 5 →
        (force_unique_signames [['A'], ['A'], ['B'], ['C'], ['B']])[i]?
          ≠ (force_unique_signames [['A'], ['A'], ['B'], ['C'], ['B']])[j]?) := by
  have hgen : ∀ a ∈ [['A'], ['A'], ['B'], ['C'], ['B']],
      ∀ b ∈ [['A'], ['A'], ['B'], ['C'], ['B']], ∀ k : Nat,
        a ≠ b ++ ':' :: (Nat.toDigits 10 k ++ ['*']) := by
    intro a ha b _ k heq
    have h1 : a.getLast? = some '*' := by
      rw [heq]; exact suffixed_getLast b k
    have h2 : ∀ a ∈ [['A'], ['A'], ['B'], ['C'], ['B']], a.getLast? ≠ some '*' := by decide
    exact h2 a ha h1
  have h := force_unique_signames_distinct [['A'], ['A'], ['B'], ['C'], ['B']] (by decide) hgen
  exact ⟨by decide, h.2.1⟩

theorem findName_range (p : List Char) (l : List (List Char)) :
    ∀ (i : Nat), findName p l i = -1
      ∨ ((i : Int) ≤ findName p l i ∧ findName p l i < ((i + l.length : Nat) : Int)) := by
  induction l with
  | nil => intro i; exact Or.inl rfl
  | cons nm rest ih =>
    intro i
    by_cases h : p = nm
    · right
      simp only [findName, h, if_true, List.length_cons]
      constructor
      · exact le_refl _
      · exact_mod_cast (by omega : i < i + (rest.length + 1))
    · simp only [findName, h, if_false, List.length_cons]
      rcases ih (i + 1) with h1 | ⟨h1, h2⟩
      · exact Or.inl h1
      · right
        constructor
        · have : ((i : Nat) : Int) ≤ ((i + 1 : Nat) : Int) := by exact_mod_cast Nat.le_succ i
          exact le_trans this h1
        · have e : i + 1 + rest.length = i + (rest.length + 1) := by omega
          rw [e] at h2
          exact h2

/-- The value of `ufindsig` is below `nsig`: it is an index of `sname` when it
is not negative. -/
theorem ufindsig_range (sname : List (List Char)) (p : List Char) :
    ufindsig sname p < (sname.length : Int) := by
  have hname : findName p sname 0 < (sname.length : Int) := by
    rcases findName_range p sname 0 with h | ⟨h1, h2⟩
    · rw [h]
      have := Int.natCast_nonneg sname.length
      omega
    · rw [Nat.zero_add] at h2
      exact h2
  unfold ufindsig
  by_cases hd : p.dropWhile isdigit = []
  · rw [if_pos hd]
    by_cases hlt : atoi p < (sname.length : Int)
    · rw [if_pos hlt]; exact hlt
    · rw [if_neg hlt]; exact hname
  · rw [if_neg hd]; exact hname

theorem mem_resolvedIndices_lt (sname : List (List Char)) (tokens : List (List Char)) (n : Nat)
    (h : n ∈ resolvedIndices sname tokens) : n < sname.length := by
  unfold resolvedIndices at h
  rw [List.mem_filterMap] at h
  obtain ⟨p, -, hp⟩ := h
  by_cases hr : ufindsig sname p ≥ 0
  · rw [if_pos hr] at hp
    have e := Option.some.inj hp
    have h2 := ufindsig_range sname p
    omega
  · rw [if_neg hr] at hp
    exact Option.noConfusion hp

theorem map_signals_loop_spec (sname : List (List Char)) (tokens : List (List Char)) :
    ∀ (sigmap : List Int) (nosig : Int), sigmap.length = sname.length →
      (map_signals_loop sname tokens sigmap nosig).1.length = sname.length
      ∧ (map_signals_loop sname tokens sigmap nosig).2
          = nosig + ((resolvedIndices sname tokens).length : Int)
      ∧ ∀ n, (map_signals_loop sname tokens sigmap nosig).1.getD n 0
          = if n ∈ resolvedIndices sname tokens then (n : Int) else sigmap.getD n 0 := by
  induction tokens with
  | nil =>
    intro sigmap nosig hl
    simp [map_signals_loop, resolvedIndices, hl]
  | cons p rest ih =>
    intro sigmap nosig hl
    by_cases hr : ufindsig sname p ≥ 0
    · have hlt : (ufindsig sname p).toNat < sname.length := by
        have h2 := ufindsig_range sname p
        omega
      have hcast : (((ufindsig sname p).toNat : Nat) : Int) = ufindsig sname p :=
        Int.toNat_of_nonneg hr
      have hres : resolvedIndices sname (p :: rest)
          = (ufindsig sname p).toNat :: resolvedIndices sname rest := by
        simp [resolvedIndices, List.filterMap_cons, hr]
      obtain ⟨h1, h2, h3⟩ := ih (sigmap.set (ufindsig sname p).toNat (ufindsig sname p))
        (nosig + 1) (by rw [List.length_set]; exact hl)
      simp only [map_signals_loop, hr, if_true]
      refine ⟨h1, ?_, ?_⟩
      · rw [h2, hres, List.length_cons]
        push_cast
        ring
      · intro n
        rw [h3 n, hres]
        by_cases hn : n ∈ resolvedIndices sname rest
        · rw [if_pos hn, if_pos (List.mem_cons_of_mem _ hn)]
        · rw [if_neg hn]
          by_cases hk : n = (ufindsig sname p).toNat
          · rw [if_pos (by rw [hk]; exact List.mem_cons_self _ _), hk,
              List.getD_eq_getElem?_getD, List.getElem?_set_self (by rw [hl]; exact hlt)]
            simp only [Option.getD_some]
            exact hcast.symm
          · have hnm : n ∉ (ufindsig sname p).toNat :: resolvedIndices sname rest := by
              intro hmem
              rcases List.mem_cons.mp hmem with h | h
              · exact hk h
              · exact hn h
            rw [if_neg hnm, List.getD_eq_getElem?_getD, List.getD_eq_getElem?_getD,
              List.getElem?_set_ne (Ne.symm hk)]
    · have hres : resolvedIndices sname (p :: rest) = resolvedIndices sname rest := by
        simp [resolvedIndices, List.filterMap_cons, hr]
      simp only [map_signals_loop, hr, if_false]
      rw [hres]
      exact ih sigmap nosig hl

/-- The array `sigmap` and the counter `nosig` that `map_signals` computes. -/
theorem map_signals_spec (sname : List (List Char)) (tokens : List (List Char)) :
    (map_signals sname tokens).1.length = sname.length
    ∧ (map_signals sname tokens).2 = ((resolvedIndices sname tokens).length : Int)
    ∧ ∀ n, n < sname.length → (map_signals sname tokens).1.getD n 0
        = if n ∈ resolvedIndices sname tokens then (n : Int) else -1 := by
  obtain ⟨h1, h2, h3⟩ := map_signals_loop_spec sname tokens
    (List.replicate sname.length (-1)) 0 (by simp)
  refine ⟨h1, by rw [map_signals, h2, Int.zero_add], ?_⟩
  intro n hn
  rw [map_signals, h3 n]
  have : (List.replicate sname.length (-1 : Int)).getD n 0 = -1 := by
    rw [List.getD_eq_getElem?_getD, List.getElem?_replicate, if_pos hn]
    rfl
  rw [this]

theorem selectedChannels_map_signals (sname : List (List Char)) (tokens : List (List Char)) :
    selectedChannels (map_signals sname tokens).1
      = (List.range sname.length).filter
          (fun n => decide (n ∈ resolvedIndices sname tokens)) := by
  obtain ⟨h1, -, h3⟩ := map_signals_spec sname tokens
  unfold selectedChannels
  rw [h1]
  apply List.filter_congr
  intro n hn
  rw [h3 n (List.mem_range.mp hn)]
  by_cases hm : n ∈ resolvedIndices sname tokens
  · simp [hm]
  · simp [hm]

theorem mem_firstOccurrences (l : List Nat) (x : Nat) : x ∈ firstOccurrences l ↔ x ∈ l := by
  induction l with
  | nil => simp [firstOccurrences]
  | cons y ys ih =>
    simp only [firstOccurrences, List.mem_cons, List.mem_filter, ih, decide_eq_true_eq]
    constructor
    · rintro (h | ⟨h, -⟩)
      · exact Or.inl h
      · exact Or.inr h
    · intro h
      by_cases hxy : x = y
      · exact Or.inl hxy
      · rcases h with h | h
        · exact Or.inl h
        · exact Or.inr ⟨h, hxy⟩

theorem nodup_firstOccurrences (l : List Nat) : (firstOccurrences l).Nodup := by
  induction l with
  | nil => simp [firstOccurrences]
  | cons y ys ih =>
    simp only [firstOccurrences, List.nodup_cons]
    exact ⟨by simp [List.mem_filter], ih.filter _⟩

theorem length_firstOccurrences_le (l : List Nat) : (firstOccurrences l).length ≤ l.length := by
  induction l with
  | nil => simp [firstOccurrences]
  | cons y ys ih =>
    simp only [firstOccurrences, List.length_cons]
    exact Nat.succ_le_succ (le_trans (List.length_filter_le _ _) ih)

theorem chan_expectedEntries (sigmap : List Int) (D : Nat → List Int) :
    (expectedEntries sigmap D).map SignalEntry.chan = selectedChannels sigmap := by
  unfold expectedEntries selectedChannels
  generalize List.range sigmap.length = l
  induction l with
  | nil => rfl
  | cons n rest ih =>
    by_cases h : sigmap.getD n 0 ≥ 0
    · simp only [List.filterMap_cons, h, if_true, List.map_cons, ih]
      rw [List.filter_cons_of_pos (by simpa using h)]
    · simp only [List.filterMap_cons, h, if_false, ih]
      rw [List.filter_cons_of_neg (by simpa using h)]

theorem storeSample_length (bufs : List (Option SampleBuf)) (n : Nat) (x : Int)
    (r : List (Option SampleBuf)) (h : storeSample bufs n x = some r) :
    r.length = bufs.length := by
  unfold storeSample at h
  split at h
  · split at h
    · rw [← Option.some.inj h, List.length_set]
    · exact Option.noConfusion h
  · exact Option.noConfusion h

theorem scatter_length (m v : List Int) (count : Nat) :
    ∀ (i : Nat) (bufs r : List (Option SampleBuf)),
      scatter m v count i bufs = some r → r.length = bufs.length := by
  induction count with
  | zero =>
    intro i bufs r h
    simp only [scatter, Option.some.injEq] at h
    rw [← h]
  | succ k ih =>
    intro i bufs r h
    by_cases hm : m.getD i 0 ≥ 0
    · simp only [scatter, hm, if_true] at h
      cases hs : storeSample bufs (m.getD i 0).toNat (v.getD i 0) with
      | none => rw [hs] at h; exact Option.noConfusion h
      | some bufs1 =>
        rw [hs] at h
        rw [ih (i + 1) bufs1 r h, storeSample_length bufs _ _ bufs1 hs]
    · simp only [scatter, hm, if_false] at h
      exact ih (i + 1) bufs r h

theorem fillBuffers_length (m : List Int) (imin count k : Nat) (src : List (List Int))
    (bufs : List (Option SampleBuf)) (r : List (Option SampleBuf) × Nat)
    (h : fillBuffers m imin count k src bufs = some r) : r.1.length = bufs.length := by
  induction k generalizing src bufs r with
  | zero =>
    simp only [fillBuffers, Option.some.injEq] at h
    rw [← h]
  | succ k ih =>
    cases src with
    | nil =>
      simp only [fillBuffers, Option.some.injEq] at h
      rw [← h]
    | cons v rest =>
      simp only [fillBuffers] at h
      cases hs : scatter m v count imin bufs with
      | none => rw [hs] at h; exact Option.noConfusion h
      | some bufs1 =>
        rw [hs] at h
        simp only at h
        cases hr : fillBuffers m imin count k rest bufs1 with
        | none => rw [hr] at h; exact Option.noConfusion h
        | some r1 =>
          rw [hr] at h
          simp only [Option.map_some', Option.some.injEq] at h
          rw [← h]
          exact (ih rest bufs1 r1 hr).trans (scatter_length m v count imin bufs bufs1 hs)

theorem selectedChannels_cons (sm : Int) (sms : List Int) :
    selectedChannels (sm :: sms)
      = (if sm ≥ 0 then [0] else []) ++ (selectedChannels sms).map Nat.succ := by
  unfold selectedChannels
  rw [List.length_cons, List.range_succ_eq_map, List.filter_cons, List.filter_map]
  have hf : ((fun n => decide ((sm :: sms).getD n 0 ≥ 0)) ∘ Nat.succ)
      = (fun n => decide (sms.getD n 0 ≥ 0)) := by
    funext n; rfl
  rw [hf]
  by_cases hs : sm ≥ 0
  · simp [hs]
  · simp [hs]

/-- The output loop writes one entry for each selected signal, in signal
order, whenever it ends without touching memory outside an allocation. -/
theorem emitSignals_chan :
    ∀ (sms : List Int) (bs : List (Option SampleBuf)) (n0 : Nat) (out : List SignalEntry),
      bs.length = sms.length → emitSignals sms bs n0 = some out →
      out.map SignalEntry.chan = (selectedChannels sms).map (fun i => n0 + i) := by
  intro sms
  induction sms with
  | nil =>
    intro bs n0 out _ h
    cases bs <;> simp only [emitSignals, Option.some.injEq] at h <;> rw [← h] <;> rfl
  | cons sm sms ih =>
    intro bs n0 out hlen h
    cases bs with
    | nil => simp at hlen
    | cons b bs =>
      have hlen2 : bs.length = sms.length := by simpa using hlen
      have hshift : (List.map Nat.succ (selectedChannels sms)).map (fun i => n0 + i)
          = (selectedChannels sms).map (fun i => n0 + 1 + i) := by
        rw [List.map_map]
        apply List.map_congr_left
        intro i _
        show n0 + (i + 1) = n0 + 1 + i
        omega
      rw [selectedChannels_cons, List.map_append, hshift]
      by_cases hs : sm ≥ 0
      · simp only [emitSignals, hs, if_true] at h
        cases b with
        | none => exact Option.noConfusion h
        | some buf =>
          simp only at h
          cases he : emitSamp buf with
          | none => rw [he] at h; exact Option.noConfusion h
          | some d =>
            rw [he] at h
            simp only at h
            cases hr : emitSignals sms bs (n0 + 1) with
            | none => rw [hr] at h; exact Option.noConfusion h
            | some rest =>
              rw [hr] at h
              simp only [Option.map_some', Option.some.injEq] at h
              rw [← h, if_pos hs, List.map_cons, ih bs (n0 + 1) rest hlen2 hr]
              rfl
      · simp only [emitSignals, hs, if_false] at h
        rw [if_neg hs, ih bs (n0 + 1) out hlen2 h]
        rfl

/-- Whenever `fetchsignals` writes output, the entries written are those of the
signals that `sigmap` selects, in signal order. -/
theorem fetchsignals_chan (spf : List Nat) (sigmap : List Int) (nosig t0 tf : Int)
    (src : List (List Int)) (out : SignalOutput) (hl : sigmap.length = spf.length)
    (h : fetchsignals spf sigmap nosig t0 tf src = some out) (hw : out.written = true) :
    out.signal.map SignalEntry.chan = selectedChannels sigmap := by
  unfold fetchsignals at h
  by_cases hg : nosig < 1 ∨ t0 ≥ tf
  · rw [if_pos hg] at h
    rw [← Option.some.inj h] at hw
    exact Bool.noConfusion hw
  · rw [if_neg hg] at h
    cases hc : collectSamples spf sigmap t0 tf src with
    | none => rw [hc] at h; exact Option.noConfusion h
    | some r =>
      rw [hc] at h
      simp only at h
      cases he : emitSignals sigmap r.1 0 with
      | none => rw [he] at h; exact Option.noConfusion h
      | some es =>
        rw [he] at h
        simp only [Option.some.injEq] at h
        have hlen : r.1.length = sigmap.length := by
          unfold collectSamples at hc
          rw [fillBuffers_length _ _ _ _ _ _ r hc, allocBuffers_length _ spf sigmap hl]
        rw [← h]
        show es.map SignalEntry.chan = selectedChannels sigmap
        rw [emitSignals_chan sigmap r.1 0 es hlen he]
        simp

/-- C11 (counterexample): with three signals and the tokens "2", "0", "2",
"zz" the Selection of the claim is 2, 0, but `fetchsignals` emits the signals
0, 2, and `nosig` is 3, not 2. -/
theorem map_signals_order_and_count :
    selectionList [['a'], ['b'], ['c']] [['2'], ['0'], ['2'], ['z', 'z']] = [2, 0]
    ∧ map_signals [['a'], ['b'], ['c']] [['2'], ['0'], ['2'], ['z', 'z']] = ([0, -1, 2], 3)
    ∧ (fetchsignals [1, 1, 1] (map_signals [['a'], ['b'], ['c']] [['2'], ['0'], ['2'], ['z', 'z']]).1 (map_signals [['a'], ['b'], ['c']] [['2'], ['0'], ['2'], ['z', 'z']]).2 0 1 [[5, 6, 7]]).map
        (fun o => o.signal.map SignalEntry.chan) = some [0, 2]
    ∧ ¬ (fetchsignals [1, 1, 1] (map_signals [['a'], ['b'], ['c']] [['2'], ['0'], ['2'], ['z', 'z']]).1 (map_signals [['a'], ['b'], ['c']] [['2'], ['0'], ['2'], ['z', 'z']]).2 0 1
          [[5, 6, 7]]).map (fun o => o.signal.map SignalEntry.chan)
        = some (selectionList [['a'], ['b'], ['c']] [['2'], ['0'], ['2'], ['z', 'z']])
    ∧ ¬ (map_signals [['a'], ['b'], ['c']] [['2'], ['0'], ['2'], ['z', 'z']]).2 = ((selectionList [['a'], ['b'], ['c']] [['2'], ['0'], ['2'], ['z', 'z']]).length : Int) := by
  decide

/-- C11 (amended): the valid resolved indices of the tokens are the values
`n >= 0` that `ufindsig` returns, a token of digits being read by `atoi` as an
`int` (with three signals the token 4294967297 resolves to 1).  For every list
of selector tokens, `map_signals` sets `sigmap[n] = n` exactly for the valid
resolved indices `n` and `-1` elsewhere; the signals selected are the distinct
valid resolved indices (duplicates collapse to one entry, unresolved tokens are
ignored): the same entries as the first-occurrence list of the tokens, but in
increasing signal order; `nosig` is the number of tokens that resolve, repeats
counted, hence at least the number of entries of that list and zero exactly
when the list is empty.  Whenever `fetchsignals` writes output for this
selection, with `spf` holding one value per signal, its entries are the
selected signals in increasing signal order; and it does write output when in
addition every signal has at least one sample per frame, `t0 < tf`, at least
one frame can be read and at least one token resolves. -/
theorem map_signals_selection (sname : List (List Char)) (tokens : List (List Char)) :
    (map_signals sname tokens).1.length = sname.length
    ∧ (∀ n, n < sname.length → (map_signals sname tokens).1.getD n 0
        = if n ∈ resolvedIndices sname tokens then (n : Int) else -1)
    ∧ (selectedChannels (map_signals sname tokens).1).Perm (selectionList sname tokens)
    ∧ (selectedChannels (map_signals sname tokens).1).Pairwise (fun a b => a < b)
    ∧ (map_signals sname tokens).2 = ((resolvedIndices sname tokens).length : Int)
    ∧ ((selectionList sname tokens).length : Int) ≤ (map_signals sname tokens).2
    ∧ ((map_signals sname tokens).2 = 0 ↔ selectionList sname tokens = [])
    ∧ (∀ (spf : List Nat) (t0 tf : Int) (src : List (List Int)),
        (∀ x ∈ spf, 1 ≤ x) → spf.length = sname.length → t0 < tf → src ≠ [] →
        1 ≤ (map_signals sname tokens).2 →
        ∃ out, fetchsignals spf (map_signals sname tokens).1 (map_signals sname tokens).2
            t0 tf src = some out
          ∧ out.written = true
          ∧ out.signal.map SignalEntry.chan
              = selectedChannels (map_signals sname tokens).1)
    ∧ (∀ (spf : List Nat) (t0 tf : Int) (src : List (List Int)) (out : SignalOutput),
        spf.length = sname.length →
        fetchsignals spf (map_signals sname tokens).1 (map_signals sname tokens).2
            t0 tf src = some out →
        out.written = true →
        out.signal.map SignalEntry.chan = selectedChannels (map_signals sname tokens).1)
    ∧ ufindsig [['a'], ['b'], ['c']] ['4', '2', '9', '4', '9', '6', '7', '2', '9', '7'] = 1
    ∧ map_signals [['a'], ['b'], ['c']] [['4', '2', '9', '4', '9', '6', '7', '2', '9', '7']]
        = ([-1, 1, -1], 1) := by
  obtain ⟨h1, h2, h3⟩ := map_signals_spec sname tokens
  refine ⟨h1, h3, ?_, ?_, h2, ?_, ?_, ?_, ?_, by decide, by decide⟩
  · rw [selectedChannels_map_signals]
    apply (List.perm_ext_iff_of_nodup ((List.nodup_range _).filter _)
      (nodup_firstOccurrences _)).mpr
    intro n
    rw [mem_firstOccurrences, List.mem_filter, List.mem_range, decide_eq_true_eq]
    constructor
    · exact fun h => h.2
    · exact fun h => ⟨mem_resolvedIndices_lt sname tokens n h, h⟩
  · rw [selectedChannels_map_signals]
    exact (List.pairwise_lt_range _).filter _
  · rw [h2]
    exact_mod_cast length_firstOccurrences_le (resolvedIndices sname tokens)
  · rw [h2]
    unfold selectionList
    cases hres : resolvedIndices sname tokens with
    | nil => simp [firstOccurrences]
    | cons x xs =>
      simp only [firstOccurrences, List.length_cons]
      constructor
      · intro h
        have : ((xs.length + 1 : Nat) : Int) = 0 := h
        omega
      · intro h
        exact absurd h (List.cons_ne_nil _ _)
  · intro spf t0 tf src hspf hl hwin hsrc hnosig
    have hsel : ∀ n, n < spf.length → (map_signals sname tokens).1.getD n 0 = -1
        ∨ (map_signals sname tokens).1.getD n 0 = (n : Int) := by
      intro n hn
      rw [h3 n (by omega)]
      by_cases hm : n ∈ resolvedIndices sname tokens
      · rw [if_pos hm]; exact Or.inr rfl
      · rw [if_neg hm]; exact Or.inl rfl
    refine ⟨_, fetchsignals_eq spf _ _ t0 tf src hspf (by rw [h1, hl]) hsel hnosig hwin hsrc,
      rfl, ?_⟩
    exact chan_expectedEntries _ _
  · intro spf t0 tf src out hl hf hw
    exact fetchsignals_chan spf _ _ t0 tf src out (by rw [h1, hl]) hf hw

/-- C11 (witness): three signals and the tokens "2", "0", "2", "zz": the
signals emitted are those of the list 2, 0, in signal order. -/
theorem map_signals_selection_witness :
    (selectedChannels (map_signals [['a'], ['b'], ['c']] [['2'], ['0'], ['2'], ['z', 'z']]).1).Perm [2, 0]
    ∧ ∃ out, fetchsignals [1, 1, 1] (map_signals [['a'], ['b'], ['c']] [['2'], ['0'], ['2'], ['z', 'z']]).1 (map_signals [['a'], ['b'], ['c']] [['2'], ['0'], ['2'], ['z', 'z']]).2 0 1
          [[5, 6, 7]] = some out
        ∧ out.written = true
        ∧ out.signal.map SignalEntry.chan = selectedChannels (map_signals [['a'], ['b'], ['c']] [['2'], ['0'], ['2'], ['z', 'z']]).1 := by
  have h := map_signals_selection [['a'], ['b'], ['c']] [['2'], ['0'], ['2'], ['z', 'z']]
  have hs : selectionList [['a'], ['b'], ['c']] [['2'], ['0'], ['2'], ['z', 'z']] = [2, 0] := by decide
  refine ⟨?_, h.2.2.2.2.2.2.2.1 [1, 1, 1] 0 1 [[5, 6, 7]] (by decide) (by decide) (by decide)
    (by decide) (by decide)⟩
  rw [← hs]
  exact h.2.2.1

/-- When signals are selected but the window is empty (`t0 >= tf`) and an
annotator is requested, `fetchsignals` prints nothing and `fetchannotations`
prints a blank where the object should open: the text is the line
`{ "fetch":`, the member `"annotator"` without an opening brace, the closing
`  }` of the object and the final `}`. -/
theorem fetch_output_unopened (annstr : Int → List Char)
    (aux : Annotation → Option (List Char)) (sname : List (List Char))
    (info : List SignalText) (spf : List Nat) (sigmap : List Int) (nosig : Int)
    (annotators : List (List Char × Option (List Annotation))) (tfreq ffreq : ℚ)
    (t0 tf : Int) (src : List (List Int)) (hnosig : 1 ≤ nosig) (hwin : tf ≤ t0)
    (hann : annotators ≠ []) :
    fetchsignals spf sigmap nosig t0 tf src = some ⟨false, [], 0⟩
    ∧ fetch_output annstr aux sname info spf sigmap nosig annotators tfreq ffreq t0 tf src
      = some ("\x7b \"fetch\":\n".toList
          ++ ("    \"annotator\":\n    [".toList
            ++ separated (annotatorText annstr aux) [',']
                (annotatorLoop (toTicks tfreq ffreq t0) (toTicks tfreq ffreq tf) annotators) true
            ++ "\n    ]\n  \x7d\n".toList)
          ++ "\x7d\n".toList) := by
  have hsig : fetchsignals spf sigmap nosig t0 tf src = some ⟨false, [], 0⟩ := by
    have hg : nosig < 1 ∨ t0 ≥ tf := Or.inr hwin
    simp only [fetchsignals, hg, if_true]
  have hlen : ¬ annotators.length < 1 := by
    have := List.length_pos.mpr hann
    omega
  have hnos : nosig > 0 := by omega
  refine ⟨hsig, ?_⟩
  have hsum : ¬ (false.toNat + true.toNat = 0) := by decide
  simp only [fetch_output, hsig, fetchsignals_text, fetchannotations, hlen, if_false,
    fetchannotations_text, if_true, hnos, Bool.false_eq_true, hsum, List.append_nil,
    List.append_assoc]
  rfl

/-- When no signal is selected and an annotator is requested, the member
`"annotator"` opens the fetch object. -/
theorem fetch_output_annotations_only (annstr : Int → List Char)
    (aux : Annotation → Option (List Char)) (sname : List (List Char))
    (info : List SignalText) (spf : List Nat) (sigmap : List Int) (nosig : Int)
    (annotators : List (List Char × Option (List Annotation))) (tfreq ffreq : ℚ)
    (t0 tf : Int) (src : List (List Int)) (hnosig : nosig < 1) (hann : annotators ≠ []) :
    fetch_output annstr aux sname info spf sigmap nosig annotators tfreq ffreq t0 tf src
      = some ("\x7b \"fetch\":\n".toList
          ++ ("  \x7b \"annotator\":\n    [".toList
            ++ separated (annotatorText annstr aux) [',']
                (annotatorLoop (toTicks tfreq ffreq t0) (toTicks tfreq ffreq tf) annotators) true
            ++ "\n    ]\n  \x7d\n".toList)
          ++ "\x7d\n".toList) := by
  have hsig : fetchsignals spf sigmap nosig t0 tf src = some ⟨false, [], 0⟩ := by
    have hg : nosig < 1 ∨ t0 ≥ tf := Or.inl hnosig
    simp only [fetchsignals, hg, if_true]
  have hlen : ¬ annotators.length < 1 := by
    have := List.length_pos.mpr hann
    omega
  have hnos : ¬ nosig > 0 := by omega
  have hsum : ¬ (false.toNat + true.toNat = 0) := by decide
  simp only [fetch_output, hsig, fetchsignals_text, fetchannotations, hlen, if_false,
    fetchannotations_text, if_true, hnos, Bool.false_eq_true, hsum, List.append_nil,
    List.append_assoc]
  rfl

/-- When neither function produces anything, the value of `"fetch"` is `null`. -/
theorem fetch_output_null (annstr : Int → List Char)
    (aux : Annotation → Option (List Char)) (sname : List (List Char))
    (info : List SignalText) (spf : List Nat) (sigmap : List Int) (nosig : Int)
    (tfreq ffreq : ℚ) (t0 tf : Int) (src : List (List Int))
    (hnone : nosig < 1 ∨ t0 ≥ tf) :
    fetch_output annstr aux sname info spf sigmap nosig [] tfreq ffreq t0 tf src
      = some "\x7b \"fetch\":\nnull\x7d\n".toList := by
  have hsig : fetchsignals spf sigmap nosig t0 tf src = some ⟨false, [], 0⟩ := by
    simp only [fetchsignals, hnone, if_true]
  have hsum : false.toNat + false.toNat = 0 := by decide
  simp only [fetch_output, hsig, fetchsignals_text, fetchannotations, List.length_nil,
    Nat.zero_lt_one, if_true, fetchannotations_text, Bool.false_eq_true, if_false, hsum,
    List.append_nil, List.nil_append]
  rfl

theorem approx_LCM_of_test_false (fuel : Nat) (x y : ℚ) (hx : 0 < x) (hy : 0 < y)
    (h : approx_LCM_test x y = some false) : approx_LCM fuel x y = some (x, 0) := by
  have hg : ¬ (x ≤ 0 ∨ y ≤ 0) := by
    rw [not_or]; exact ⟨not_le.mpr hx, not_le.mpr hy⟩
  rw [approx_LCM, if_neg hg]
  exact approx_LCM_loop_done x y x y fuel h

theorem tickFrequency_cons (fuel : Nat) (ffreq : ℚ) (spf : Nat) (rest : List Nat)
    (tfreq f : ℚ) (r : ℚ × Nat) (h1 : toDouble (ffreq * (spf : ℚ)) = some f)
    (h2 : approx_LCM fuel f tfreq = some r) :
    tickFrequency fuel ffreq (spf :: rest) tfreq = tickFrequency fuel ffreq rest r.1 := by
  simp only [tickFrequency, h1, h2]

theorem tickFrequency_250 : tickFrequency 0 250 [1] 250 = some 250 := by
  have h1 : toDouble (250 * ((1 : Nat) : ℚ)) = some 250 := by
    have h := toDouble_exact 250 0 (by decide) (by decide)
      (by
        have := zpow_le_DBL_MAX 8 (by decide)
        norm_num at this ⊢
        linarith)
    simpa using h
  have h2 : approx_LCM 0 250 250 = some (250, 0) :=
    approx_LCM_of_test_false 0 250 250 (by norm_num) (by norm_num)
      (approx_LCM_test_eq 250 (by norm_num))
  rw [tickFrequency_cons 0 250 1 [] 250 250 (250, 0) h1 h2]
  rfl

theorem fetch_of_tickFrequency (fuel : Nat) (annstr : Int → List Char)
    (aux : Annotation → Option (List Char)) (desc : List (List Char)) (info : List SignalText)
    (spf : List Nat) (sampfreq : ℚ) (signalParams : List (List Char))
    (annotatorParams : List (List Char × Option (List Annotation)))
    (start : Int) (dtParam : Option (List Char)) (src : List (List Int)) (tfreq : ℚ)
    (ht : tickFrequency fuel (if sampfreq ≤ 0 then WFDB_DEFFREQ else sampfreq) spf
      (if sampfreq ≤ 0 then WFDB_DEFFREQ else sampfreq) = some tfreq) :
    fetch fuel annstr aux desc info spf sampfreq signalParams annotatorParams start dtParam src
      = fetch_output annstr aux (force_unique_signames desc) info spf
          (if 0 < desc.length then map_signals (force_unique_signames desc) signalParams
            else ([], 0)).1
          (if 0 < desc.length then map_signals (force_unique_signames desc) signalParams
            else ([], 0)).2
          (prep_annotators annotatorParams) tfreq
          (if sampfreq ≤ 0 then WFDB_DEFFREQ else sampfreq)
          (prep_times (if sampfreq ≤ 0 then WFDB_DEFFREQ else sampfreq) start dtParam).t0
          (prep_times (if sampfreq ≤ 0 then WFDB_DEFFREQ else sampfreq) start dtParam).tf src := by
  unfold fetch
  rw [ht]

set_option maxRecDepth 100000 in
/-- C12: one signal, selected by the token "0"; one annotator "atr" that opens
and holds one annotation; start time 0 and duration "0".  `prep_times` gives
`t0 = tf = 0`, `fetchsignals` writes nothing, and `fetch` writes the text below:
`"annotator"` is preceded by a blank, not by the opening brace of the fetch
object, and the text has three opening and four closing braces. -/
theorem fetch_zero_duration_unbalanced :
    map_signals (force_unique_signames [['E', 'C', 'G']]) [['0']] = ([0], 1)
    ∧ fetchsignals [1] [0] 1 0 0 [[7]] = some ⟨false, [], 0⟩
    ∧ fetch 0 (fun _ => ['N']) (fun _ => none) [['E', 'C', 'G']]
        [⟨none, ['2', '0', '0'], 0, none⟩] [1] 250 [['0']] [(['a', 't', 'r'], some [⟨10, 1, 0, 0, 0⟩])] 0 (some ['0']) [[7]]
      = some "\x7b \"fetch\":\n    \"annotator\":\n    [\n      \x7b \"name\": \"atr\",\n        \"annotation\":\n        [\n          \x7b \"t\": 10,\n            \"a\": \"N\",\n            \"s\": 0,\n            \"c\": 0,\n            \"n\": 0,\n            \"x\": null\n          \x7d\n        ]\n      \x7d\n    ]\n  \x7d\n\x7d\n".toList
    ∧ "\x7b \"fetch\":\n    \"annotator\":\n    [\n      \x7b \"name\": \"atr\",\n        \"annotation\":\n        [\n          \x7b \"t\": 10,\n            \"a\": \"N\",\n            \"s\": 0,\n            \"c\": 0,\n            \"n\": 0,\n            \"x\": null\n          \x7d\n        ]\n      \x7d\n    ]\n  \x7d\n\x7d\n".toList.count '\x7b' = 3
    ∧ "\x7b \"fetch\":\n    \"annotator\":\n    [\n      \x7b \"name\": \"atr\",\n        \"annotation\":\n        [\n          \x7b \"t\": 10,\n            \"a\": \"N\",\n            \"s\": 0,\n            \"c\": 0,\n            \"n\": 0,\n            \"x\": null\n          \x7d\n        ]\n      \x7d\n    ]\n  \x7d\n\x7d\n".toList.count '\x7d' = 4 := by
  have hf : (if (250 : ℚ) ≤ 0 then WFDB_DEFFREQ else 250) = 250 := by norm_num
  have ht : tickFrequency 0 250 [1] 250 = some 250 := tickFrequency_250
  have hm : map_signals (force_unique_signames [['E', 'C', 'G']]) [['0']] = ([0], 1) := by
    decide
  have hp : prep_times 250 0 (some ['0']) = ⟨0, 0, 0⟩ := by
    have h0 : atoi ['0'] = 0 := by decide
    simp [prep_times, h0, prep_times_dt]
  have hl : (0 : Nat) < [['E', 'C', 'G']].length := by decide
  have ho := (fetch_output_unopened (fun _ => ['N']) (fun _ => none)
    (force_unique_signames [['E', 'C', 'G']]) [⟨none, ['2', '0', '0'], 0, none⟩] [1] [0] 1
    (prep_annotators [(['a', 't', 'r'], some [⟨10, 1, 0, 0, 0⟩])]) 250 250 0 0 [[7]] (by decide) (by decide) (by decide)).2
  have hticks : toTicks 250 250 0 = 0 := by simp [toTicks]
  refine ⟨hm, by decide, ?_, by rfl, by rfl⟩
  rw [fetch_of_tickFrequency 0 _ _ _ _ _ 250 _ _ _ _ _ 250 (by rw [hf]; exact ht)]
  simp only [hf, hl, if_true, hm, hp, ho, hticks]
  rfl

end Lightwave
